import Mathlib

/-!
Shallow embedding of the Genie+ clustering merge engine
(genieclust: `c_genie.h`, `disjoint_sets.h`) and of the
Gini-aware disjoint-sets structure (`c_gini_disjoint_sets.h`,
modelled from the specification since its source is not part of
the repository snapshot).

Machine `ssize_t` values that can be negative (edge endpoints,
skip-list cursors, denoise tables) are modelled as `Int`;
`ulonglong` union-find element ids as `Nat`; `double` weights and
the Gini index as `ℚ`.  Every C++ `operator[]` access is modelled
as a checked access returning `Except`: an out-of-bounds access
(undefined behaviour in the source) surfaces as the distinguished
error `Err.oobAccess`.  Unbounded recursion (recursive `find`,
the Genie `while` walk) is modelled with explicit fuel that is
sufficient on every state reachable from a valid run; exhaustion
surfaces as `Err.fuelExhausted`.
-/

/-- Error outcomes of the embedded engine: C++ `std::domain_error`,
`std::runtime_error`, `std::invalid_argument`, out-of-bounds vector
access (undefined behaviour in the source), and fuel exhaustion
(model artifact for source-level unbounded loops). -/
inductive Err where
  | domainError (msg : String)
  | runtimeError (msg : String)
  | invalidArgument (msg : String)
  | oobAccess
  | fuelExhausted
deriving DecidableEq, Repr

/-- Checked read `l[i]` with a signed index, modelling C++ `operator[]`. -/
def rdI {α : Type} (l : List α) (i : Int) : Except Err α :=
  if h : 0 ≤ i ∧ i.toNat < l.length then .ok (l.get ⟨i.toNat, h.2⟩) else .error .oobAccess

/-- Checked write `l[i] := v` with a signed index, modelling C++ `operator[]`. -/
def wrI {α : Type} (l : List α) (i : Int) (v : α) : Except Err (List α) :=
  if 0 ≤ i ∧ i.toNat < l.length then .ok (l.set i.toNat v) else .error .oobAccess

theorem rdI_ok_iff {α : Type} {l : List α} {i : Int} {v : α} :
    rdI l i = .ok v ↔ ∃ h : 0 ≤ i ∧ i.toNat < l.length, l.get ⟨i.toNat, h.2⟩ = v := by
  unfold rdI
  split
  · rename_i h
    simp [h]
  · rename_i h
    simp [h]

theorem wrI_ok_iff {α : Type} {l : List α} {i : Int} {v : α} {l' : List α} :
    wrI l i v = .ok l' ↔ (0 ≤ i ∧ i.toNat < l.length) ∧ l' = l.set i.toNat v := by
  unfold wrI
  split
  · rename_i h
    simp [h, eq_comm]
  · rename_i h
    simp [h]

theorem rdI_nat_ok {α : Type} {l : List α} {u : ℕ} (h : u < l.length) :
    rdI l (u : Int) = .ok (l.get ⟨u, h⟩) := by
  unfold rdI
  have : ((u : Int)).toNat = u := by simp
  rw [dif_pos]
  · simp
  · exact ⟨by positivity, by simpa using h⟩

theorem exceptBind_ok {α β : Type} {e : Except Err α} {f : α → Except Err β} {b : β} :
    (e >>= f) = .ok b ↔ ∃ a, e = .ok a ∧ f a = .ok b := by
  cases e <;> simp [Bind.bind, Except.bind]

theorem exceptOk_bind {α β : Type} {a : α} {f : α → Except Err β} :
    ((Except.ok a : Except Err α) >>= f) = f a := rfl

/-! ### DisjointSets (`disjoint_sets.h`) -/

/-- The union-find structure of `disjoint_sets.h`: `n` elements,
`k` current subsets, parent table `par`. -/
structure DisjointSets where
  n : ℕ
  k : ℕ
  par : List ℕ
deriving DecidableEq, Repr

/-- Constructor `DisjointSets(n)`: the all-singletons partition. -/
def DisjointSets.mk0 (n : ℕ) : DisjointSets :=
  { n := n, k := n, par := List.range n }

/-- Recursive path-compressing `find`, with explicit fuel (the C++
recursion depth is bounded by the parent chain, which strictly
descends thanks to the `par i ≤ i` invariant; fuel `n` always
suffices on reachable states). Returns the root together with the
compressed parent table. -/
def findAux (par : List ℕ) : ℕ → ℕ → ℕ × List ℕ
  | 0, x => (x, par)
  | fuel+1, x =>
    let p := par.getD x x
    if p = x then (x, par)
    else
      let r := findAux par fuel p
      (r.1, r.2.set x r.1)

/-- `DisjointSets::find(x)`: range check, then path-compressing find.
A negative argument is a `ulonglong` conversion to a huge value in the
source, hence also fails the range check there. -/
def DisjointSets.findE (d : DisjointSets) (x : Int) : Except Err (ℕ × DisjointSets) :=
  if 0 ≤ x ∧ x < (d.n : Int) then
    let r := findAux d.par d.n x.toNat
    .ok (r.1, { d with par := r.2 })
  else .error (.domainError "x not in range")

/-- `DisjointSets::merge(x, y)`: find both roots, reject equal roots,
and make the numerically smaller root the parent of the larger.
The source also returns the smaller root; the return value is unused
by the engine and omitted here. -/
def DisjointSets.mergeE (d : DisjointSets) (x y : Int) : Except Err DisjointSets := do
  let rx ← d.findE x
  let ry ← rx.2.findE y
  if rx.1 = ry.1 then throw (.invalidArgument "find x equals find y")
  else
    pure { ry.2 with
           par := ry.2.par.set (Nat.max rx.1 ry.1) (Nat.min rx.1 ry.1)
           k := ry.2.k - 1 }

/-- One observable operation on a `DisjointSets`. -/
inductive DSOp where
  | find (x : Int)
  | merge (x y : Int)

/-- Exception-safe state evolution of one operation: a C++ exception
leaves the object in the state it had when the exception was thrown
(`find` throws before any mutation; `merge` can throw after the two
internal path-compressing finds have already run). -/
def DisjointSets.applyOp (d : DisjointSets) : DSOp → DisjointSets
  | .find x =>
    match d.findE x with
    | .ok r => r.2
    | .error _ => d
  | .merge x y =>
    match d.findE x with
    | .error _ => d
    | .ok rx =>
      match rx.2.findE y with
      | .error _ => rx.2
      | .ok ry =>
        if rx.1 = ry.1 then ry.2
        else { ry.2 with
               par := ry.2.par.set (Nat.max rx.1 ry.1) (Nat.min rx.1 ry.1)
               k := ry.2.k - 1 }

/-- Run a sequence of find/merge operations from the all-singletons state. -/
def DisjointSets.runOps (n : ℕ) (ops : List DSOp) : DisjointSets :=
  ops.foldl DisjointSets.applyOp (DisjointSets.mk0 n)

/-- The parent-table invariant `par i ≤ i` (trivially true at
out-of-range indices, where `getD` falls back to `i` itself). -/
def ParInv (par : List ℕ) : Prop := ∀ i : ℕ, par.getD i i ≤ i

theorem parInv_range (n : ℕ) : ParInv (List.range n) := by
  intro i
  by_cases h : i < n
  · rw [List.getD_eq_getElem _ _ (by simpa using h)]
    simp
  · rw [List.getD_eq_default _ _ (by simpa using h)]

/-! ### CGiniDisjointSets (modelled from the spec) -/

/-- Insertion of a value into an ascending list (helper for sorting
the multiset of set sizes, as the Gini formula is stated over the
sorted multiset). -/
def insSorted (a : ℕ) : List ℕ → List ℕ
  | [] => [a]
  | b :: t => if a ≤ b then a :: b :: t else b :: insSorted a t

/-- Ascending insertion sort of a multiset of set sizes. -/
def sortAsc : List ℕ → List ℕ
  | [] => []
  | a :: t => insSorted a (sortAsc t)

/-- Sum of a list of set sizes. -/
def sumList : List ℕ → ℕ
  | [] => 0
  | a :: t => a + sumList t

/-- Numerator of the Gini index: for the (ascending) sizes
`s_i, i = 1..k`, the value `Σ (2 i - k - 1) s_i`; `i` is the 1-based
position of the head of the remaining list. -/
def giniNumAux (k : ℤ) : ℤ → List ℕ → ℤ
  | _, [] => 0
  | i, s :: t => (2 * i - k - 1) * (s : ℤ) + giniNumAux k (i + 1) t

/-- Modelled from the spec: the Gini index of a multiset of set sizes,
`G = Σ (2 i - k - 1) s_i / ((k - 1) Σ s_i)` over the ascending
arrangement (0 when the denominator vanishes, e.g. `k = 1`). -/
def giniOf (sizes : List ℕ) : ℚ :=
  let s := sortAsc sizes
  let k := s.length
  Rat.divInt (giniNumAux (k : ℤ) 1 s) (((k : ℤ) - 1) * (sumList s : ℤ))

/-- Modelled from the spec: the Gini-aware disjoint sets structure of
the missing header `c_gini_disjoint_sets.h`.  It wraps the plain
union-find of `disjoint_sets.h` and keeps, for every current root `r`,
the size `cnt r` of its set; the Gini index, the smallest present
size and per-element counts are answered from this state. -/
structure CGiniDisjointSets where
  ds : DisjointSets
  cnt : List ℕ
deriving DecidableEq, Repr

/-- Modelled from the spec: `CGiniDisjointSets(n)` starts from `n`
singletons, each of size 1. -/
def CGiniDisjointSets.mk0 (n : ℕ) : CGiniDisjointSets :=
  { ds := DisjointSets.mk0 n, cnt := List.replicate n 1 }

/-- Non-mutating root lookup by following the parent chain (fuel-based;
fuel `n` suffices whenever the chain descends, i.e. under `ParInv`). -/
def rootOfAux (par : List ℕ) : ℕ → ℕ → ℕ
  | 0, x => x
  | fuel+1, x =>
    let p := par.getD x x
    if p = x then x else rootOfAux par fuel p

/-- The multiset of sizes of the current sets: the `cnt` entries of the
current roots, in root order. -/
def CGiniDisjointSets.rootSizes (g : CGiniDisjointSets) : List ℕ :=
  ((List.range g.ds.n).filter (fun r => g.ds.par.getD r r = r)).map
    (fun r => g.cnt.getD r 0)

/-- Modelled from the spec: `get_gini()`, the Gini index of the current
multiset of set sizes. -/
def CGiniDisjointSets.get_gini (g : CGiniDisjointSets) : ℚ :=
  giniOf g.rootSizes

/-- Minimum of a list of sizes (0 for the empty list). -/
def minList : List ℕ → ℕ
  | [] => 0
  | a :: t => t.foldl Nat.min a

/-- Modelled from the spec: `get_smallest_count()`, the smallest size
present among the current sets. -/
def CGiniDisjointSets.get_smallest_count (g : CGiniDisjointSets) : ℕ :=
  minList g.rootSizes

/-- Modelled from the spec: `get_count(x)`, the size of the set that
contains `x` (range-checked; non-mutating). -/
def CGiniDisjointSets.get_count (g : CGiniDisjointSets) (x : Int) : Except Err ℕ :=
  if 0 ≤ x ∧ x < (g.ds.n : Int) then
    .ok (g.cnt.getD (rootOfAux g.ds.par g.ds.n x.toNat) 0)
  else .error (.domainError "x not in range")

/-- Modelled from the spec: `find(x)` of the Gini structure is the
path-compressing find of the wrapped union-find. -/
def CGiniDisjointSets.findE (g : CGiniDisjointSets) (x : Int) :
    Except Err (ℕ × CGiniDisjointSets) :=
  (g.ds.findE x).map (fun r => (r.1, { g with ds := r.2 }))

/-- Modelled from the spec: `merge(x, y)` of the Gini structure: the
union step of the plain union-find (the numerically smaller root
becomes the parent) together with the size bookkeeping
`cnt lo := cnt lo + cnt hi`. -/
def CGiniDisjointSets.merge (g : CGiniDisjointSets) (x y : Int) :
    Except Err CGiniDisjointSets := do
  let rx ← g.ds.findE x
  let ry ← rx.2.findE y
  if rx.1 = ry.1 then throw (.invalidArgument "find x equals find y")
  else
    let lo := Nat.min rx.1 ry.1
    let hi := Nat.max rx.1 ry.1
    pure { ds := { ry.2 with par := ry.2.par.set hi lo, k := ry.2.k - 1 }
           cnt := g.cnt.set lo (g.cnt.getD lo 0 + g.cnt.getD hi 0) }

/-- The merge of the Gini structure refines the plain union-find merge:
projecting away the size bookkeeping gives exactly `DisjointSets::merge`. -/
theorem CGiniDisjointSets.merge_proj (g : CGiniDisjointSets) (x y : Int) :
    (g.merge x y).map (fun h => h.ds) = g.ds.mergeE x y := by
  unfold CGiniDisjointSets.merge DisjointSets.mergeE
  cases hx : g.ds.findE x with
  | error e => simp [hx, Bind.bind, Except.bind, Except.map]
  | ok rx =>
    cases hy : rx.2.findE y with
    | error e => simp [hx, hy, Bind.bind, Except.bind, Except.map]
    | ok ry =>
      by_cases h : rx.1 = ry.1 <;>
        simp [hx, hy, h, Bind.bind, Except.bind, Except.map, throw, throwThe,
          MonadExceptOf.throw, pure, Except.pure]

/-! ### The Genie engine (`c_genie.h`) -/

/-- `Cget_graph_node_degrees` loop body, processing edges
`i, i+1, ...` while `rem` edges remain. Edges with a negative endpoint
are skipped; an endpoint `≥ n` or a self-loop raises a domain error;
otherwise both endpoint degrees are incremented. -/
def CgetDegLoop (ind : List Int) (n : ℕ) : ℕ → ℕ → List Int → Except Err (List Int)
  | _, 0, deg => .ok deg
  | i, rem+1, deg => do
    let u ← rdI ind (2 * (i : Int))
    let v ← rdI ind (2 * (i : Int) + 1)
    if u < 0 ∨ v < 0 then CgetDegLoop ind n (i + 1) rem deg
    else if (n : Int) ≤ u ∨ (n : Int) ≤ v then
      throw (.domainError "element not in range")
    else if u = v then throw (.domainError "self-loops are not allowed")
    else do
      let du ← rdI deg u
      let deg1 ← wrI deg u (du + 1)
      let dv ← rdI deg1 v
      let deg2 ← wrI deg1 v (dv + 1)
      CgetDegLoop ind n (i + 1) rem deg2

/-- `Cget_graph_node_degrees(ind, num_edges, n, deg)`: zero the degree
table, then process all edges. -/
def Cget_graph_node_degrees (ind : List Int) (num_edges : ℕ) (n : ℕ) :
    Except Err (List Int) :=
  CgetDegLoop ind n 0 num_edges (List.replicate n (0 : Int))

/-- The `mst_d` ascending-order check of the `CGenie` constructor:
for `i = 1, ..., n-2`, `mst_d (i-1) > mst_d i` raises a domain error.
`rem` is the number of remaining iterations. -/
def sortedCheckLoop (d : List ℚ) : ℕ → ℕ → Except Err Unit
  | _, 0 => .ok ()
  | i, rem+1 => do
    let a ← rdI d ((i : Int) - 1)
    let b ← rdI d (i : Int)
    if b < a then throw (.domainError "mst_d unsorted")
    else sortedCheckLoop d (i + 1) rem

/-- The noise-mode denoise-table construction loop of the constructor:
threads `(noise_count, j, denoise_index, denoise_index_rev)` over the
vertices. A leaf (`deg = 1`) is marked noise; a non-leaf receives the
next compacted id `j`. -/
def denoiseLoop (deg : List Int) :
    ℕ → ℕ → ℕ → ℕ → List Int → List Int →
    Except Err (ℕ × ℕ × List Int × List Int)
  | _, 0, nc, j, di, dr => .ok (nc, j, di, dr)
  | i, rem+1, nc, j, di, dr => do
    let dgi ← rdI deg (i : Int)
    if dgi = 1 then do
      let dr1 ← wrI dr (i : Int) (-1)
      denoiseLoop deg (i + 1) rem (nc + 1) j di dr1
    else do
      let di1 ← wrI di (j : Int) (i : Int)
      let dr1 ← wrI dr (i : Int) (j : Int)
      denoiseLoop deg (i + 1) rem nc (j + 1) di1 dr1

/-- The identity denoise tables of the non-noise constructor branch
(the loop writes `denoise_index i = denoise_index_rev i = i`). -/
def idN (n : ℕ) : List Int := (List.range n).map Int.ofNat

/-- The state of a `CGenie` engine instance. -/
structure CGenie where
  mst_d : List ℚ
  mst_i : List Int
  n : ℕ
  noise_leaves : Bool
  deg : List Int
  noise_count : ℕ
  denoise_index : List Int
  denoise_index_rev : List Int
  next_edge : List Int
  prev_edge : List Int
  curidx : Int
  lastidx : Int
  ds : CGiniDisjointSets
deriving DecidableEq, Repr

/-- The `CGenie` constructor: check that `mst_d` ascends, compute the
vertex degrees, then build the denoise tables (identity in non-noise
mode; leaf-compaction plus two fatal assertions in noise mode).  The
skip-list tables are the zero-initialised vectors of size `n`; the
cursors and the inner `ds` member are set up later by
`skiplist_init` / `do_genie`. -/
def cGenieInit (mst_d : List ℚ) (mst_i : List Int) (n : ℕ) (noise_leaves : Bool) :
    Except Err CGenie := do
  sortedCheckLoop mst_d 1 (n - 1 - 1)
  let deg ← Cget_graph_node_degrees mst_i (n - 1) n
  if noise_leaves then do
    let r ← denoiseLoop deg 0 n 0 0 (List.replicate n 0) (List.replicate n 0)
    if ¬ (r.1 ≥ 2) then throw (.runtimeError "ASSERT FAIL noise_count ge 2")
    else if ¬ (r.2.1 + r.1 = n) then throw (.runtimeError "ASSERT FAIL j plus noise_count eq n")
    else
      pure { mst_d := mst_d, mst_i := mst_i, n := n, noise_leaves := noise_leaves
             deg := deg, noise_count := r.1
             denoise_index := r.2.2.1, denoise_index_rev := r.2.2.2
             next_edge := List.replicate n 0, prev_edge := List.replicate n 0
             curidx := 0, lastidx := 0, ds := CGiniDisjointSets.mk0 0 }
  else
    pure { mst_d := mst_d, mst_i := mst_i, n := n, noise_leaves := noise_leaves
           deg := deg, noise_count := 0
           denoise_index := idN n, denoise_index_rev := idN n
           next_edge := List.replicate n 0, prev_edge := List.replicate n 0
           curidx := 0, lastidx := 0, ds := CGiniDisjointSets.mk0 0 }

/-- The noise-mode skip-list construction loop: threads
`(curidx, lastidx, next_edge, prev_edge)` over the edge slots and links
exactly the edges whose two endpoints both have degree `> 1`. -/
def skiplistNoiseLoop (st : CGenie) :
    ℕ → ℕ → Int → Int → List Int → List Int →
    Except Err (Int × Int × List Int × List Int)
  | _, 0, cur, last, ne, pe => .ok (cur, last, ne, pe)
  | i, rem+1, cur, last, ne, pe => do
    let i1 ← rdI st.mst_i (2 * (i : Int))
    let i2 ← rdI st.mst_i (2 * (i : Int) + 1)
    let d1 ← rdI st.deg i1
    let d2 ← rdI st.deg i2
    if d1 > 1 ∧ d2 > 1 then
      if cur < 0 then do
        let pe1 ← wrI pe (i : Int) (-1)
        skiplistNoiseLoop st (i + 1) rem (i : Int) (i : Int) ne pe1
      else do
        let ne1 ← wrI ne last (i : Int)
        let pe1 ← wrI pe (i : Int) last
        skiplistNoiseLoop st (i + 1) rem cur (i : Int) ne1 pe1
    else skiplistNoiseLoop st (i + 1) rem cur last ne pe

/-- The non-noise skip-list construction loop: the natural chain
`next_edge i = i + 1`, `prev_edge i = i - 1` over the edge slots. -/
def skiplistChainLoop :
    ℕ → ℕ → List Int → List Int → Except Err (List Int × List Int)
  | _, 0, ne, pe => .ok (ne, pe)
  | i, rem+1, ne, pe => do
    let ne1 ← wrI ne (i : Int) ((i : Int) + 1)
    let pe1 ← wrI pe (i : Int) ((i : Int) - 1)
    skiplistChainLoop (i + 1) rem ne1 pe1

/-- `CGenie::skiplist_init()`.  In noise mode the final statement
`next_edge (lastidx) := n - 1` is executed with whatever `lastidx` the
loop produced: when no edge joined two non-noise vertices this is the
out-of-bounds write `next_edge (-1)`. -/
def skiplist_init (st : CGenie) : Except Err CGenie := do
  if st.noise_leaves then do
    let r ← skiplistNoiseLoop st 0 (st.n - 1) (-1) (-1) st.next_edge st.prev_edge
    let ne1 ← wrI r.2.2.1 r.2.1 ((st.n : Int) - 1)
    pure { st with curidx := r.1, lastidx := r.1, next_edge := ne1, prev_edge := r.2.2.2 }
  else do
    let r ← skiplistChainLoop 0 (st.n - 1) st.next_edge st.prev_edge
    pure { st with curidx := 0, lastidx := 0, next_edge := r.1, prev_edge := r.2 }

/-- The Genie-branch `while` walk (lines 188-193 of `c_genie.h`):
advance `lastidx` along the skip-list until an edge is found one of
whose endpoints lies in a set of size `m`.  The walk is fuel-based;
the source loop is unbounded and runs off the list (out-of-bounds
reads) when no such edge remains. -/
def genieWalk (st : CGenie) (m : ℕ) : ℕ → Int → Except Err Int
  | 0, _ => .error .fuelExhausted
  | fuel+1, last => do
    let e1 ← rdI st.mst_i (2 * last)
    let e2 ← rdI st.mst_i (2 * last + 1)
    let r1 ← rdI st.denoise_index_rev e1
    let r2 ← rdI st.denoise_index_rev e2
    let c1 ← st.ds.get_count r1
    let c2 ← st.ds.get_count r2
    if c1 ≠ m ∧ c2 ≠ m then do
      let last1 ← rdI st.next_edge last
      genieWalk st m fuel last1
    else pure last

/-- The Genie-branch selection (lines 183-193 of `c_genie.h`): compute
the smallest present size `m`, reset the memoised walk position when
the target size changed or the memo fell behind the head, then walk to
the first remaining edge touching a set of size `m`. -/
def genieSelect (st : CGenie) (lastm : ℕ) : Except Err Int :=
  let m := st.ds.get_smallest_count
  let last0 := if m ≠ lastm ∨ st.lastidx < st.curidx then st.curidx else st.lastidx
  genieWalk st m (st.n + 1) last0

/-- One full Genie-branch step (lines 181-222 of `c_genie.h`):
selection, skip-list consumption (head advance or interior splice),
and the merge of the selected edge; returns the new state together
with the new `lastm` memo.  The reads of `denoise_index_rev` are
hoisted before the skip-list update, which touches neither that table
nor `ds`: the resulting `Except` value is identical to the source
order. -/
def genieBranch (st : CGenie) (lastm : ℕ) : Except Err (CGenie × ℕ) := do
  let m := st.ds.get_smallest_count
  let last ← genieSelect st lastm
  let i1 ← rdI st.mst_i (2 * last)
  let i2 ← rdI st.mst_i (2 * last + 1)
  let r1 ← rdI st.denoise_index_rev i1
  let r2 ← rdI st.denoise_index_rev i2
  if last = st.curidx then do
    let cur1 ← rdI st.next_edge st.curidx
    let g1 ← st.ds.merge r1 r2
    pure ({ st with curidx := cur1, lastidx := cur1, ds := g1 }, m)
  else do
    let previdx ← rdI st.prev_edge last
    let last1 ← rdI st.next_edge last
    let ne1 ← wrI st.next_edge previdx last1
    let pe1 ← wrI st.prev_edge last1 previdx
    let g1 ← st.ds.merge r1 r2
    pure ({ st with next_edge := ne1, prev_edge := pe1, lastidx := last1, ds := g1 }, m)

/-- The merge loop of `do_genie`: `t` merges remain; each iteration
either takes the Genie branch (current Gini index above the threshold)
or the single-linkage branch (consume the cursor edge). -/
def doGenieLoop (g : ℚ) : ℕ → CGenie → ℕ → Except Err CGenie
  | 0, st, _ => .ok st
  | t+1, st, lastm =>
    if st.ds.get_gini > g then do
      let r ← genieBranch st lastm
      doGenieLoop g t r.1 r.2
    else do
      let i1 ← rdI st.mst_i (2 * st.curidx)
      let i2 ← rdI st.mst_i (2 * st.curidx + 1)
      let cur1 ← rdI st.next_edge st.curidx
      let r1 ← rdI st.denoise_index_rev i1
      let r2 ← rdI st.denoise_index_rev i2
      let g1 ← st.ds.merge r1 r2
      doGenieLoop g t { st with curidx := cur1, ds := g1 } lastm

/-- `CGenie::do_genie(n_clusters, gini_threshold)`: reject a cluster
count that leaves no merge to perform, reset `ds` to the singletons
over the non-noise vertices, and run `n - noise_count - n_clusters`
merges (with `lastm` starting at 0). -/
def do_genie (st0 : CGenie) (n_clusters : ℕ) (g : ℚ) : Except Err CGenie :=
  if (st0.n : Int) - (st0.noise_count : Int) - (n_clusters : Int) ≤ 0 then
    .error (.runtimeError "too many clusters")
  else
    doGenieLoop g (st0.n - st0.noise_count - n_clusters)
      { st0 with ds := CGiniDisjointSets.mk0 (st0.n - st0.noise_count) } 0

/-- The label-extraction loop of `CGenie::get_labels`: threads
`(res_cluster_id, c, res, ds)` over the vertices; noise vertices get
label `-1`, others the contiguous id of their root (first-occurrence
numbering). -/
def getLabelsLoop (st : CGenie) :
    ℕ → ℕ → List Int → Int → List Int → CGiniDisjointSets →
    Except Err (List Int × CGiniDisjointSets)
  | _, 0, _, _, res, ds => .ok (res, ds)
  | i, rem+1, rid, c, res, ds => do
    let ri ← rdI st.denoise_index_rev (i : Int)
    if ri ≥ 0 then do
      let fr ← ds.findE ri
      let j ← rdI st.denoise_index (fr.1 : Int)
      let rj ← rdI rid j
      if rj < 0 then do
        let rid1 ← wrI rid j c
        let res1 ← wrI res (i : Int) c
        getLabelsLoop st (i + 1) rem rid1 (c + 1) res1 fr.2
      else do
        let res1 ← wrI res (i : Int) rj
        getLabelsLoop st (i + 1) rem rid c res1 fr.2
    else do
      let res1 ← wrI res (i : Int) (-1)
      getLabelsLoop st (i + 1) rem rid c res1 ds

/-- `CGenie::get_labels(res)`: scratch `res_cluster_id` initialised to
`-1`, next label 0; the caller-supplied output buffer is modelled as a
zero list of length `n` (every slot is overwritten). -/
def get_labels (st : CGenie) : Except Err (List Int) := do
  let r ← getLabelsLoop st 0 st.n (List.replicate st.n (-1)) 0
    (List.replicate st.n 0) st.ds
  pure r.1

/-- `CGenie::apply_genie(n_clusters, gini_threshold, res)`. -/
def apply_genie (st : CGenie) (n_clusters : ℕ) (g : ℚ) : Except Err (List Int) := do
  let st1 ← skiplist_init st
  let st2 ← do_genie st1 n_clusters g
  get_labels st2

/-- Construct the engine and run it: the full pipeline a caller sees. -/
def applyFull (mst_d : List ℚ) (mst_i : List Int) (n : ℕ) (noise_leaves : Bool)
    (n_clusters : ℕ) (g : ℚ) : Except Err (List Int) := do
  let st ← cGenieInit mst_d mst_i n noise_leaves
  apply_genie st n_clusters g

deriving instance DecidableEq for Except

/-! ### Specification-side definitions used to settle the claims -/

/-- Modelled from the spec: the merge sequence of a pure single-linkage
cut, joining the components of the `n - k` lightest MST edges in
ascending order in a plain union-find. -/
def slMergeLoop (mst_i : List Int) : ℕ → ℕ → DisjointSets → Except Err DisjointSets
  | _, 0, d => .ok d
  | i, rem+1, d => do
    let i1 ← rdI mst_i (2 * (i : Int))
    let i2 ← rdI mst_i (2 * (i : Int) + 1)
    let d1 ← d.mergeE i1 i2
    slMergeLoop mst_i (i + 1) rem d1

/-- Modelled from the spec: label extraction for the single-linkage
cut; every vertex receives the contiguous id of its root, numbered by
first occurrence (no noise vertices). -/
def slLabelsLoop (n : ℕ) :
    ℕ → ℕ → List Int → Int → List Int → DisjointSets →
    Except Err (List Int × DisjointSets)
  | _, 0, _, _, res, d => .ok (res, d)
  | i, rem+1, rid, c, res, d => do
    let fr ← d.findE (i : Int)
    let rj ← rdI rid (fr.1 : Int)
    if rj < 0 then do
      let rid1 ← wrI rid (fr.1 : Int) c
      let res1 ← wrI res (i : Int) c
      slLabelsLoop n (i + 1) rem rid1 (c + 1) res1 fr.2
    else do
      let res1 ← wrI res (i : Int) rj
      slLabelsLoop n (i + 1) rem rid c res1 fr.2

/-- Modelled from the spec: a pure single-linkage cut of the MST at the
`(n-k)`-th edge: merge the `n - k` lightest edges, then label the
resulting components `0, 1, ...` in order of first occurrence. -/
def singleLinkageCut (mst_i : List Int) (n n_clusters : ℕ) : Except Err (List Int) := do
  let d ← slMergeLoop mst_i 0 (n - n_clusters) (DisjointSets.mk0 n)
  let r ← slLabelsLoop n 0 n (List.replicate n (-1)) 0 (List.replicate n 0) d
  pure r.1

/-- The size, before a merge, of the set containing the `j`-th endpoint
(`j = 0` or `1`) of edge slot `e`: the endpoint is read from `mst_i`,
translated through `denoise_index_rev`, and looked up in the Gini
structure. -/
def countOfEndpoint (st : CGenie) (e : Int) (j : Int) : Except Err ℕ := do
  let v ← rdI st.mst_i (2 * e + j)
  let r ← rdI st.denoise_index_rev v
  st.ds.get_count r

/-- Edge slot `t` is accepted by the degree computer: both endpoints
are non-negative (otherwise the slot is silently skipped). -/
def edgeNonneg (ind : List Int) (t : ℕ) : Prop :=
  0 ≤ ind.getD (2 * t) 0 ∧ 0 ≤ ind.getD (2 * t + 1) 0

/-- Edge slot `t` is well-formed for vertex count `n`: both endpoints
below `n` and no self-loop. -/
def edgeGood (ind : List Int) (n : ℕ) (t : ℕ) : Prop :=
  ind.getD (2 * t) 0 < (n : Int) ∧ ind.getD (2 * t + 1) 0 < (n : Int) ∧
    ind.getD (2 * t) 0 ≠ ind.getD (2 * t + 1) 0

instance (ind : List Int) (t : ℕ) : Decidable (edgeNonneg ind t) := by
  unfold edgeNonneg; infer_instance

instance (ind : List Int) (n t : ℕ) : Decidable (edgeGood ind n t) := by
  unfold edgeGood; infer_instance

/-- The number of accepted edges among slots `i, ..., i+rem-1` that are
incident to vertex `w`. -/
def incCount (ind : List Int) (w : ℕ) : ℕ → ℕ → ℕ
  | _, 0 => 0
  | i, rem+1 =>
    (if edgeNonneg ind i ∧
        (ind.getD (2 * i) 0 = (w : Int) ∨ ind.getD (2 * i + 1) 0 = (w : Int))
     then 1 else 0) + incCount ind w (i + 1) rem

/-- Some pair of adjacent weights among slots `i-1, ..., i+rem-1`
descends (the check `mst_d (t-1) > mst_d t` of the constructor). -/
def descendFrom (d : List ℚ) : ℕ → ℕ → Bool
  | _, 0 => false
  | i, rem+1 =>
    (decide (d.getD i 0 < d.getD (i - 1) 0)) || descendFrom d (i + 1) rem

/-- The number of vertices among `i, ..., i+rem-1` whose degree is
exactly 1 (the leaves, counted as noise by the constructor). -/
def leafCountFrom (deg : List Int) : ℕ → ℕ → ℕ
  | _, 0 => 0
  | i, rem+1 =>
    (if deg.getD i 0 = 1 then 1 else 0) + leafCountFrom deg (i + 1) rem

/-- The chain of nodes visited by `find` strictly before reaching the
root (the nodes whose parent pointer gets rewritten). -/
def chainToRoot (par : List ℕ) : ℕ → ℕ → List ℕ
  | 0, _ => []
  | fuel+1, x =>
    let p := par.getD x x
    if p = x then [] else x :: chainToRoot par fuel p

/-- Edge slot `t` joins two non-noise vertices: both endpoint reads
succeed and both endpoint degrees exceed 1 (the condition under which
`skiplist_init` links slot `t` in noise mode). -/
def edgeJoinsNonNoise (st : CGenie) (t : ℕ) : Prop :=
  ∃ i1 i2 d1 d2,
    rdI st.mst_i (2 * (t : Int)) = .ok i1 ∧
    rdI st.mst_i (2 * (t : Int) + 1) = .ok i2 ∧
    rdI st.deg i1 = .ok d1 ∧ rdI st.deg i2 = .ok d2 ∧ 1 < d1 ∧ 1 < d2

/-! ### Claim C1 -/

/-- C1 counterexample: on the path graph `n = 5`, edges
`(0,1),(1,2),(2,3),(3,4)` with weights `1,2,3,4`, running `apply` with
`n_clusters = 2`, `gini_threshold = 0`, `noise_leaves = false` yields
the labels `[0,0,0,0,1]`, not the claimed `[0,0,0,1,1]`: at the third
merge the Genie walk stops at edge `(2,3)`, whose endpoint 3 lies in a
set of the smallest size 1. -/
theorem C1_counterexample :
    applyFull [1,2,3,4] [0,1,1,2,2,3,3,4] 5 false 2 0 = .ok [0,0,0,0,1] ∧
    applyFull [1,2,3,4] [0,1,1,2,2,3,3,4] 5 false 2 0 ≠ .ok [0,0,0,1,1] := by
  decide

/-- C1 (amended): for the path-graph input `n = 5` with edges
`(0,1),(1,2),(2,3),(3,4)` and weights `1,2,3,4`, running `apply` with
`n_clusters = 2`, `gini_threshold = 0`, `noise_leaves = false`
produces the output labels `[0,0,0,0,1]` (final partition sizes
4 and 1). -/
theorem C1_path_genie_labels :
    applyFull [1,2,3,4] [0,1,1,2,2,3,3,4] 5 false 2 0 = .ok [0,0,0,0,1] := by
  decide

/-! ### Claim C5 -/

/-- C5 counterexample: for the star graph `n = 5` with centre 0 and
unit weights, in noise mode with `n_clusters = 1`,
`gini_threshold = 1/2`, `apply` does not succeed: it performs the
out-of-bounds skip-list write `next_edge (-1)` (undefined behaviour in
the source), so it does not produce the claimed labels. -/
theorem C5_counterexample :
    applyFull [1,1,1,1] [0,1,0,2,0,3,0,4] 5 true 1 (mkRat 1 2) = .error .oobAccess ∧
    applyFull [1,1,1,1] [0,1,0,2,0,3,0,4] 5 true 1 (mkRat 1 2) ≠ .ok [0,-1,-1,-1,-1] := by
  decide

/-- C5 (amended): for the star-graph input the construction succeeds,
but `apply` fails instead of producing labels: `skiplist_init` reaches
the out-of-bounds write `next_edge (-1)` because no edge joins two
non-noise vertices; and even bypassing `skiplist_init`, `do_genie`
rejects `n_clusters = 1` because `n - noise_count - n_clusters = 0`. -/
theorem C5_star_apply_fails :
    (cGenieInit [1,1,1,1] [0,1,0,2,0,3,0,4] 5 true).toOption.isSome = true ∧
    applyFull [1,1,1,1] [0,1,0,2,0,3,0,4] 5 true 1 (mkRat 1 2) = .error .oobAccess ∧
    ((cGenieInit [1,1,1,1] [0,1,0,2,0,3,0,4] 5 true).bind
      (fun st => do_genie st 1 (mkRat 1 2))) = .error (.runtimeError "too many clusters") := by
  decide

/-! ### Claim C6 -/

/-- C6 counterexample: for `n = 3`, edges `(0,1),(0,1)` (weights
`1,1`), two vertices have degree greater than 1 — by the claim the
noise-mode construction should succeed — yet the engine throws the
`noise_count >= 2` assertion, because the code counts vertices of
degree exactly 1 (leaves), of which there are none here. -/
theorem C6_counterexample :
    Cget_graph_node_degrees [0,1,0,1] 2 3 = .ok [2,2,0] ∧
    (([2,2,0] : List Int).filter (fun x => decide (1 < x))).length = 2 ∧
    cGenieInit [1,1] [0,1,0,1] 3 true =
      .error (.runtimeError "ASSERT FAIL noise_count ge 2") := by
  decide

theorem wrI_nat_ok {α : Type} {l : List α} {u : ℕ} (h : u < l.length) (v : α) :
    wrI l (u : Int) v = .ok (l.set u v) := by
  unfold wrI
  rw [if_pos ⟨by positivity, by simpa using h⟩]
  simp

theorem rdI_nat_getD {α : Type} {l : List α} {u : ℕ} (d0 : α) (h : u < l.length) :
    rdI l (u : Int) = .ok (l.getD u d0) := by
  rw [rdI_nat_ok h, List.getD_eq_getElem l d0 h]
  simp

theorem leafCountFrom_succ (deg : List Int) (i m : ℕ) :
    leafCountFrom deg i (m + 1) =
      (if deg.getD i 0 = 1 then 1 else 0) + leafCountFrom deg (i + 1) m := rfl

theorem leafCountFrom_le (deg : List Int) : ∀ rem i, leafCountFrom deg i rem ≤ rem := by
  intro rem
  induction rem with
  | zero => intro i; simp [leafCountFrom]
  | succ m ih =>
    intro i
    rw [leafCountFrom_succ]
    have := ih (i + 1)
    split <;> omega

/-- The noise-mode denoise loop always succeeds (in-bounds throughout)
and computes: new noise count = old plus the number of leaves in the
scanned range, with compacted ids covering the rest. -/
theorem denoiseLoop_ok (deg : List Int) (n : ℕ) (hdeg : deg.length = n) :
    ∀ rem i nc j di dr, di.length = n → dr.length = n → i + rem = n → j ≤ i →
    ∃ j' di' dr',
      denoiseLoop deg i rem nc j di dr =
        .ok (nc + leafCountFrom deg i rem, j', di', dr') ∧
      j' + leafCountFrom deg i rem = j + rem := by
  intro rem
  induction rem with
  | zero =>
    intro i nc j di dr _ _ _ _
    exact ⟨j, di, dr, by simp [denoiseLoop, leafCountFrom], by simp [leafCountFrom]⟩
  | succ m ih =>
    intro i nc j di dr hdi hdr hin hj
    have hiL : i < deg.length := by omega
    unfold denoiseLoop
    rw [rdI_nat_getD 0 hiL]
    rw [exceptOk_bind]
    rw [leafCountFrom_succ]
    by_cases hleaf : deg.getD i 0 = 1
    · rw [if_pos hleaf, if_pos hleaf]
      rw [wrI_nat_ok (by omega : i < dr.length) (-1), exceptOk_bind]
      obtain ⟨j', di', dr', heq, hsum⟩ :=
        ih (i + 1) (nc + 1) j di (dr.set i (-1)) hdi (by simpa using hdr) (by omega) (by omega)
      refine ⟨j', di', dr', ?_, by omega⟩
      rw [heq]
      have : nc + 1 + leafCountFrom deg (i + 1) m
          = nc + (1 + leafCountFrom deg (i + 1) m) := by omega
      rw [this]
    · rw [if_neg hleaf, if_neg hleaf]
      rw [wrI_nat_ok (by omega : j < di.length) (i : Int), exceptOk_bind]
      rw [wrI_nat_ok (by omega : i < dr.length) (j : Int), exceptOk_bind]
      obtain ⟨j', di', dr', heq, hsum⟩ :=
        ih (i + 1) nc (j + 1) (di.set j (i : Int)) (dr.set i (j : Int))
          (by simpa using hdi) (by simpa using hdr) (by omega) (by omega)
      refine ⟨j', di', dr', ?_, by omega⟩
      rw [heq]
      have : nc + leafCountFrom deg (i + 1) m = nc + (0 + leafCountFrom deg (i + 1) m) := by omega
      rw [← this]

/-- The degree loop never changes the length of the degree table. -/
theorem CgetDegLoop_length (ind : List Int) (n : ℕ) :
    ∀ rem i deg dg, CgetDegLoop ind n i rem deg = .ok dg → dg.length = deg.length := by
  intro rem
  induction rem with
  | zero =>
    intro i deg dg h
    simp [CgetDegLoop] at h
    rw [← h]
  | succ m ih =>
    intro i deg dg h
    unfold CgetDegLoop at h
    obtain ⟨u, hu, h⟩ := exceptBind_ok.mp h
    obtain ⟨v, hv, h⟩ := exceptBind_ok.mp h
    split at h
    · exact ih _ _ _ h
    · split at h
      · simp [throw, throwThe, MonadExceptOf.throw] at h
      · split at h
        · simp [throw, throwThe, MonadExceptOf.throw] at h
        · obtain ⟨du, hdu, h⟩ := exceptBind_ok.mp h
          obtain ⟨deg1, hdeg1, h⟩ := exceptBind_ok.mp h
          obtain ⟨dv, hdv, h⟩ := exceptBind_ok.mp h
          obtain ⟨deg2, hdeg2, h⟩ := exceptBind_ok.mp h
          have h1 := (wrI_ok_iff.mp hdeg1).2
          have h2 := (wrI_ok_iff.mp hdeg2).2
          have := ih _ _ _ h
          rw [this, h2, h1]
          simp

theorem Cget_length {ind : List Int} {num n : ℕ} {dg : List Int}
    (h : Cget_graph_node_degrees ind num n = .ok dg) : dg.length = n := by
  have := CgetDegLoop_length ind n num 0 _ _ h
  simpa using this

/-- C6 (amended): with `noise_leaves = true`, given that the weight
check and the degree computation pass, construction of the engine
succeeds if and only if at least 2 vertices have degree exactly 1
(i.e. at least 2 MST leaves); it fails with the fatal
`noise_count >= 2` assertion otherwise.  (The claim as stated — at
least 2 vertices of degree greater than 1 — is refuted by
`C6_counterexample`.) -/
theorem C6_noise_mode_iff (d : List ℚ) (ei : List Int) (n : ℕ) (dg : List Int)
    (hs : sortedCheckLoop d 1 (n - 1 - 1) = .ok ())
    (hd : Cget_graph_node_degrees ei (n - 1) n = .ok dg) :
    (∃ st, cGenieInit d ei n true = .ok st) ↔ 2 ≤ leafCountFrom dg 0 n := by
  have hlen : dg.length = n := Cget_length hd
  unfold cGenieInit
  rw [hs, exceptOk_bind, hd, exceptOk_bind]
  obtain ⟨j', di', dr', heq, hsum⟩ :=
    denoiseLoop_ok dg n hlen n 0 0 0 (List.replicate n 0) (List.replicate n 0)
      (by simp) (by simp) (by omega) (by omega)
  simp only [if_pos rfl, ite_true]
  rw [heq, exceptOk_bind]
  constructor
  · rintro ⟨st, hst⟩
    by_contra hlt
    rw [if_pos (by simpa using by omega : ¬ (0 + leafCountFrom dg 0 n ≥ 2))] at hst
    simp [throw, throwThe, MonadExceptOf.throw] at hst
  · intro hL
    rw [if_neg (by simpa using by omega : ¬ ¬ (0 + leafCountFrom dg 0 n ≥ 2))]
    rw [if_neg (by simpa using by omega : ¬ ¬ (j' + (0 + leafCountFrom dg 0 n) = n))]
    exact ⟨_, rfl⟩

/-! ### Claim C7 -/

theorem getD_set {α : Type} (l : List α) (a : ℕ) (x : α) (w : ℕ) (d0 : α) :
    (l.set a x).getD w d0 = if a = w ∧ a < l.length then x else l.getD w d0 := by
  rcases Nat.lt_or_ge w l.length with h | h
  · by_cases haw : a = w
    · subst haw
      by_cases hl : a < l.length
      · simp [List.getD_eq_getElem _ d0, h, hl, List.getElem_set]
      · omega
    · simp only [List.getD_eq_getElem _ d0 (by simpa using h :
          w < (l.set a x).length), List.getD_eq_getElem _ d0 h, List.getElem_set]
      rw [if_neg haw, if_neg (by simp [haw])]
  · rw [List.getD_eq_default _ d0 (by simpa using h), List.getD_eq_default _ d0 (by omega)]
    have : ¬ (a = w ∧ a < l.length) := by omega
    simp [this]

theorem rdI_int_getD {α : Type} {l : List α} {i : Int} (h0 : 0 ≤ i)
    (h : i.toNat < l.length) (d0 : α) : rdI l i = .ok (l.getD i.toNat d0) := by
  unfold rdI
  rw [dif_pos ⟨h0, h⟩, List.getD_eq_getElem l d0 h]
  simp

theorem wrI_int_ok {α : Type} {l : List α} {i : Int} (h0 : 0 ≤ i)
    (h : i.toNat < l.length) (v : α) : wrI l i v = .ok (l.set i.toNat v) := by
  unfold wrI
  rw [if_pos ⟨h0, h⟩]

theorem incCount_succ (ind : List Int) (w i m : ℕ) :
    incCount ind w i (m + 1) =
      (if edgeNonneg ind i ∧
          (ind.getD (2 * i) 0 = (w : Int) ∨ ind.getD (2 * i + 1) 0 = (w : Int))
       then 1 else 0) + incCount ind w (i + 1) m := rfl

theorem castMul2 (i : ℕ) : (2 * (i : Int)) = ((2 * i : ℕ) : Int) := by push_cast; ring

theorem castMul2' (i : ℕ) : (2 * (i : Int) + 1) = ((2 * i + 1 : ℕ) : Int) := by push_cast; ring

theorem bump2_getD (deg : List Int) (a b w : ℕ) (ha : a < deg.length)
    (hb : b < deg.length) (hab : a ≠ b) :
    ((deg.set a (deg.getD a 0 + 1)).set b
        ((deg.set a (deg.getD a 0 + 1)).getD b 0 + 1)).getD w 0
      = deg.getD w 0 + (if a = w ∨ b = w then 1 else 0) := by
  by_cases h2 : b = w
  · subst h2
    rw [getD_set, if_pos ⟨rfl, by rw [List.length_set]; exact hb⟩, getD_set,
      if_neg (by tauto), if_pos (Or.inr rfl)]
  · rw [getD_set, if_neg (by tauto), getD_set]
    by_cases h1 : a = w
    · subst h1
      rw [if_pos ⟨rfl, ha⟩, if_pos (Or.inl rfl)]
    · rw [if_neg (by tauto), if_neg (by tauto)]
      omega

/-- Success case of the degree loop: when every non-skipped edge in the
remaining range is well-formed, the loop succeeds and adds to each
vertex the number of its incident accepted edges. -/
theorem CgetDegLoop_ok (ind : List Int) (n : ℕ) :
    ∀ rem i deg, 2 * (i + rem) ≤ ind.length → deg.length = n →
    (∀ t, i ≤ t → t < i + rem → edgeNonneg ind t → edgeGood ind n t) →
    ∃ dg, CgetDegLoop ind n i rem deg = .ok dg ∧ dg.length = n ∧
      ∀ w : ℕ, dg.getD w 0 = deg.getD w 0 + (incCount ind w i rem : Int) := by
  intro rem
  induction rem with
  | zero =>
    intro i deg _ hdeg _
    exact ⟨deg, by simp [CgetDegLoop], hdeg, by simp [incCount]⟩
  | succ m ih =>
    intro i deg hbound hdeg hgood
    have hb1 : 2 * i < ind.length := by omega
    have hb2 : 2 * i + 1 < ind.length := by omega
    unfold CgetDegLoop
    rw [castMul2 i, rdI_nat_getD 0 hb1, exceptOk_bind]
    rw [show ((2 * i : ℕ) : Int) + 1 = ((2 * i + 1 : ℕ) : Int) by push_cast; ring]
    rw [rdI_nat_getD 0 hb2, exceptOk_bind]
    set u := ind.getD (2 * i) 0 with hu
    set v := ind.getD (2 * i + 1) 0 with hv
    by_cases hskip : u < 0 ∨ v < 0
    · rw [if_pos hskip]
      obtain ⟨dg, heq, hlen, hval⟩ := ih (i + 1) deg (by omega) hdeg
        (fun t ht1 ht2 => hgood t (by omega) (by omega))
      refine ⟨dg, heq, hlen, fun w => ?_⟩
      rw [hval w, incCount_succ]
      have hnn : ¬ edgeNonneg ind i := by
        unfold edgeNonneg
        omega
      rw [if_neg (by tauto)]
      simp
    · have hnn : edgeNonneg ind i := by
        unfold edgeNonneg
        omega
      have hgd := hgood i (by omega) (by omega) hnn
      unfold edgeGood at hgd
      rw [if_neg hskip]
      rw [if_neg (by omega : ¬ ((n : Int) ≤ u ∨ (n : Int) ≤ v))]
      rw [if_neg hgd.2.2]
      have hu0 : 0 ≤ u := by omega
      have hv0 : 0 ≤ v := by omega
      have huL : u.toNat < deg.length := by omega
      have hvL : v.toNat < (deg.set u.toNat (deg.getD u.toNat 0 + 1)).length := by
        rw [List.length_set]
        omega
      have hab : u.toNat ≠ v.toNat := by omega
      rw [rdI_int_getD hu0 huL 0, exceptOk_bind]
      rw [wrI_int_ok hu0 huL _, exceptOk_bind]
      rw [rdI_int_getD hv0 hvL 0, exceptOk_bind]
      rw [wrI_int_ok hv0 hvL _, exceptOk_bind]
      obtain ⟨dg, heq, hlen, hval⟩ := ih (i + 1)
        ((deg.set u.toNat (deg.getD u.toNat 0 + 1)).set v.toNat
          ((deg.set u.toNat (deg.getD u.toNat 0 + 1)).getD v.toNat 0 + 1))
        (by omega) (by rw [List.length_set, List.length_set]; exact hdeg)
        (fun t ht1 ht2 => hgood t (by omega) (by omega))
      refine ⟨dg, heq, hlen, fun w => ?_⟩
      rw [hval w, incCount_succ]
      rw [bump2_getD deg u.toNat v.toNat w huL (by omega) hab]
      have hcond : (u.toNat = w ∨ v.toNat = w) ↔
          (edgeNonneg ind i ∧ (u = (w : Int) ∨ v = (w : Int))) := by
        constructor
        · intro h
          exact ⟨hnn, by omega⟩
        · intro h
          omega
      by_cases hc : u.toNat = w ∨ v.toNat = w
      · rw [if_pos hc, if_pos (hcond.mp hc)]
        push_cast
        ring
      · rw [if_neg hc, if_neg (fun hx => hc (hcond.mpr hx))]
        push_cast
        ring

/-- Failure case of the degree loop: a non-skipped edge with an
endpoint at or above `n`, or a self-loop, makes the loop raise a
domain error. -/
theorem CgetDegLoop_err (ind : List Int) (n : ℕ) :
    ∀ rem i deg, 2 * (i + rem) ≤ ind.length → deg.length = n →
    (∃ t, i ≤ t ∧ t < i + rem ∧ edgeNonneg ind t ∧ ¬ edgeGood ind n t) →
    ∃ msg, CgetDegLoop ind n i rem deg = .error (.domainError msg) := by
  intro rem
  induction rem with
  | zero =>
    intro i deg _ _ hbad
    omega
  | succ m ih =>
    intro i deg hbound hdeg hbad
    have hb1 : 2 * i < ind.length := by omega
    have hb2 : 2 * i + 1 < ind.length := by omega
    unfold CgetDegLoop
    rw [castMul2 i, rdI_nat_getD 0 hb1, exceptOk_bind]
    rw [show ((2 * i : ℕ) : Int) + 1 = ((2 * i + 1 : ℕ) : Int) by push_cast; ring]
    rw [rdI_nat_getD 0 hb2, exceptOk_bind]
    set u := ind.getD (2 * i) 0 with hu
    set v := ind.getD (2 * i + 1) 0 with hv
    by_cases hskip : u < 0 ∨ v < 0
    · rw [if_pos hskip]
      refine ih (i + 1) deg (by omega) hdeg ?_
      obtain ⟨t, ht1, ht2, ht3, ht4⟩ := hbad
      have : t ≠ i := by
        intro hc
        subst hc
        unfold edgeNonneg at ht3
        omega
      exact ⟨t, by omega, by omega, ht3, ht4⟩
    · have hnn : edgeNonneg ind i := by
        unfold edgeNonneg
        omega
      rw [if_neg hskip]
      by_cases hgd : edgeGood ind n i
      · have hgd' := hgd
        unfold edgeGood at hgd'
        rw [if_neg (by omega : ¬ ((n : Int) ≤ u ∨ (n : Int) ≤ v))]
        rw [if_neg hgd'.2.2]
        have hu0 : 0 ≤ u := by omega
        have hv0 : 0 ≤ v := by omega
        have huL : u.toNat < deg.length := by omega
        have hvL : v.toNat < (deg.set u.toNat (deg.getD u.toNat 0 + 1)).length := by
          rw [List.length_set]
          omega
        rw [rdI_int_getD hu0 huL 0, exceptOk_bind]
        rw [wrI_int_ok hu0 huL _, exceptOk_bind]
        rw [rdI_int_getD hv0 hvL 0, exceptOk_bind]
        rw [wrI_int_ok hv0 hvL _, exceptOk_bind]
        refine ih (i + 1)
          ((deg.set u.toNat (deg.getD u.toNat 0 + 1)).set v.toNat
            ((deg.set u.toNat (deg.getD u.toNat 0 + 1)).getD v.toNat 0 + 1))
          (by omega) (by rw [List.length_set, List.length_set]; exact hdeg) ?_
        obtain ⟨t, ht1, ht2, ht3, ht4⟩ := hbad
        have : t ≠ i := by
          intro hc
          subst hc
          exact ht4 hgd
        exact ⟨t, by omega, by omega, ht3, ht4⟩
      · unfold edgeGood at hgd
        by_cases hrange : (n : Int) ≤ u ∨ (n : Int) ≤ v
        · rw [if_pos hrange]
          exact ⟨_, rfl⟩
        · rw [if_neg hrange]
          rw [if_pos (by omega : u = v)]
          exact ⟨_, rfl⟩

/-- C7: the degree computer, given an edge array and vertex count `n`:
edges with either endpoint negative are silently skipped; among the
remaining edges, any endpoint at or above `n` or any self-loop raises
a domain error; otherwise it succeeds and, for every vertex `w`, the
degree of `w` equals the number of accepted edges incident to `w`
(each accepted edge contributing 1 to both of its distinct
endpoints). -/
theorem C7_degree_contract (ind : List Int) (num n : ℕ)
    (hlen : 2 * num ≤ ind.length) :
    ((∀ t, t < num → edgeNonneg ind t → edgeGood ind n t) →
      ∃ dg, Cget_graph_node_degrees ind num n = .ok dg ∧ dg.length = n ∧
        ∀ w : ℕ, dg.getD w 0 = (incCount ind w 0 num : Int)) ∧
    ((∃ t, t < num ∧ edgeNonneg ind t ∧ ¬ edgeGood ind n t) →
      ∃ msg, Cget_graph_node_degrees ind num n = .error (.domainError msg)) := by
  constructor
  · intro hgood
    obtain ⟨dg, heq, hl, hv⟩ := CgetDegLoop_ok ind n num 0 (List.replicate n 0)
      (by omega) (by simp) (fun t _ ht2 => hgood t (by omega))
    refine ⟨dg, heq, hl, fun w => ?_⟩
    rw [hv w]
    rcases Nat.lt_or_ge w n with h | h
    · rw [List.getD_eq_getElem _ 0 (by simpa using h)]
      simp
    · rw [List.getD_eq_default _ 0 (by simpa using h)]
      simp
  · intro hbad
    obtain ⟨t, ht⟩ := hbad
    exact CgetDegLoop_err ind n num 0 (List.replicate n 0) (by omega) (by simp)
      ⟨t, by omega, by omega, ht.2.1, ht.2.2⟩

/-- Witness for C7: a concrete instance with a skipped edge whose
second endpoint is even out of range (the skip takes precedence), and
two accepted edges. -/
theorem C7_degree_contract_witness :
    ∃ dg, Cget_graph_node_degrees [0,1,-1,5,1,2] 3 3 = .ok dg ∧ dg.length = 3 ∧
      ∀ w : ℕ, dg.getD w 0 = (incCount [0,1,-1,5,1,2] w 0 3 : Int) :=
  (C7_degree_contract [0,1,-1,5,1,2] 3 3 (by decide)).1 (by decide)

/-! ### Claim C8 -/

theorem descendFrom_succ (d : List ℚ) (i m : ℕ) :
    descendFrom d i (m + 1) =
      ((decide (d.getD i 0 < d.getD (i - 1) 0)) || descendFrom d (i + 1) m) := rfl

theorem descendFrom_iff (d : List ℚ) :
    ∀ rem i, descendFrom d i rem = true ↔
      ∃ t, i ≤ t ∧ t < i + rem ∧ d.getD t 0 < d.getD (t - 1) 0 := by
  intro rem
  induction rem with
  | zero =>
    intro i
    simp [descendFrom]
    omega
  | succ m ih =>
    intro i
    rw [descendFrom_succ, Bool.or_eq_true, decide_eq_true_iff, ih (i + 1)]
    constructor
    · rintro (h | ⟨t, ht1, ht2, ht3⟩)
      · exact ⟨i, by omega, by omega, h⟩
      · exact ⟨t, by omega, by omega, ht3⟩
    · rintro ⟨t, ht1, ht2, ht3⟩
      by_cases hti : t = i
      · subst hti
        exact Or.inl ht3
      · exact Or.inr ⟨t, by omega, by omega, ht3⟩

/-- The ascending-order check loop returns ok exactly when no adjacent
pair in its range descends, and the `mst_d unsorted` domain error
otherwise. -/
theorem sortedCheckLoop_char (d : List ℚ) :
    ∀ rem i, 1 ≤ i → i + rem ≤ d.length →
      (descendFrom d i rem = false → sortedCheckLoop d i rem = .ok ()) ∧
      (descendFrom d i rem = true →
        sortedCheckLoop d i rem = .error (.domainError "mst_d unsorted")) := by
  intro rem
  induction rem with
  | zero =>
    intro i _ _
    exact ⟨fun _ => by simp [sortedCheckLoop], fun h => by simp [descendFrom] at h⟩
  | succ m ih =>
    intro i hi hbound
    have hi1 : i - 1 < d.length := by omega
    have hiL : i < d.length := by omega
    have hcast : (i : Int) - 1 = ((i - 1 : ℕ) : Int) := by omega
    constructor
    · intro h
      rw [descendFrom_succ, Bool.or_eq_false_iff, decide_eq_false_iff_not] at h
      unfold sortedCheckLoop
      rw [hcast, rdI_nat_getD 0 hi1, exceptOk_bind, rdI_nat_getD 0 hiL, exceptOk_bind]
      rw [if_neg h.1]
      exact (ih (i + 1) (by omega) (by omega)).1 h.2
    · intro h
      rw [descendFrom_succ, Bool.or_eq_true, decide_eq_true_iff] at h
      unfold sortedCheckLoop
      rw [hcast, rdI_nat_getD 0 hi1, exceptOk_bind, rdI_nat_getD 0 hiL, exceptOk_bind]
      by_cases hlt : d.getD i 0 < d.getD (i - 1) 0
      · rw [if_pos hlt]
        rfl
      · rw [if_neg hlt]
        exact (ih (i + 1) (by omega) (by omega)).2 (by tauto)

/-- C8: assuming the edge list passes the degree computer, the
constructor raises a domain error if and only if the weight sequence
is not ascending, i.e. some adjacent pair among the `n - 1` weights
descends.  (In that case the error is `mst_d unsorted`, raised before
anything else; otherwise the only remaining failures are runtime
errors of the noise assertions, not domain errors.) -/
theorem C8_constructor_domain_iff (d : List ℚ) (ei : List Int) (n : ℕ) (nl : Bool)
    (dg : List Int) (hlen : d.length = n - 1)
    (hdeg : Cget_graph_node_degrees ei (n - 1) n = .ok dg) :
    (∃ msg, cGenieInit d ei n nl = .error (.domainError msg)) ↔
      ∃ t, 1 ≤ t ∧ t < n - 1 ∧ d.getD t 0 < d.getD (t - 1) 0 := by
  have hdglen : dg.length = n := Cget_length hdeg
  by_cases hn : n ≤ 1
  · have hrem : n - 1 - 1 = 0 := by omega
    constructor
    · rintro ⟨msg, hmsg⟩
      unfold cGenieInit at hmsg
      rw [hrem] at hmsg
      rw [show sortedCheckLoop d 1 0 = .ok () from rfl, exceptOk_bind, hdeg,
        exceptOk_bind] at hmsg
      exfalso
      rcases nl with _ | _
      · simp [pure, Except.pure] at hmsg
      · simp only [ite_true] at hmsg
        obtain ⟨j', di', dr', heq, hsum⟩ :=
          denoiseLoop_ok dg n hdglen n 0 0 0 (List.replicate n 0) (List.replicate n 0)
            (by simp) (by simp) (by omega) (by omega)
        rw [heq, exceptOk_bind] at hmsg
        split at hmsg
        · simp [throw, throwThe, MonadExceptOf.throw] at hmsg
        · split at hmsg
          · simp [throw, throwThe, MonadExceptOf.throw] at hmsg
          · simp [pure, Except.pure] at hmsg
    · rintro ⟨t, ht1, ht2, _⟩
      omega
  · have hbound : 1 + (n - 1 - 1) ≤ d.length := by omega
    by_cases hdesc : descendFrom d 1 (n - 1 - 1) = true
    · constructor
      · intro _
        obtain ⟨t, ht1, ht2, ht3⟩ := (descendFrom_iff d _ 1).mp hdesc
        exact ⟨t, ht1, by omega, ht3⟩
      · intro _
        refine ⟨"mst_d unsorted", ?_⟩
        unfold cGenieInit
        rw [(sortedCheckLoop_char d _ 1 (by omega) hbound).2 hdesc]
        rfl
    · rw [Bool.not_eq_true] at hdesc
      constructor
      · rintro ⟨msg, hmsg⟩
        exfalso
        unfold cGenieInit at hmsg
        rw [(sortedCheckLoop_char d _ 1 (by omega) hbound).1 hdesc, exceptOk_bind,
          hdeg, exceptOk_bind] at hmsg
        rcases nl with _ | _
        · simp [pure, Except.pure] at hmsg
        · simp only [ite_true] at hmsg
          obtain ⟨j', di', dr', heq, hsum⟩ :=
            denoiseLoop_ok dg n hdglen n 0 0 0 (List.replicate n 0) (List.replicate n 0)
              (by simp) (by simp) (by omega) (by omega)
          rw [heq, exceptOk_bind] at hmsg
          split at hmsg
          · simp [throw, throwThe, MonadExceptOf.throw] at hmsg
          · split at hmsg
            · simp [throw, throwThe, MonadExceptOf.throw] at hmsg
            · simp [pure, Except.pure] at hmsg
      · rintro ⟨t, ht1, ht2, ht3⟩
        exfalso
        have : descendFrom d 1 (n - 1 - 1) = true :=
          (descendFrom_iff d _ 1).mpr ⟨t, ht1, by omega, ht3⟩
        rw [hdesc] at this
        exact Bool.false_ne_true this

/-- Witness for C8: a concrete unsorted-weights instance raising the
domain error. -/
theorem C8_constructor_domain_iff_witness :
    ∃ msg, cGenieInit [1,3,2] [0,1,1,2,2,3] 4 false = .error (.domainError msg) :=
  (C8_constructor_domain_iff [1,3,2] [0,1,1,2,2,3] 4 false [1,2,2,1]
    (by decide) (by decide)).mpr ⟨2, by omega, by omega, by decide⟩

/-- Witness for C6: a graph with exactly 2 leaves (and a single
non-noise vertex) is accepted by the noise-mode constructor. -/
theorem C6_noise_mode_iff_witness :
    ∃ st, cGenieInit [1,1] [0,1,-1,-1] 3 true = .ok st :=
  (C6_noise_mode_iff [1,1] [0,1,-1,-1] 3 [1,1,0] (by decide) (by decide)).mpr (by decide)

/-! ### Claim C4 -/

theorem ParInv_set {par : List ℕ} (h : ParInv par) {a v : ℕ} (hv : v ≤ a) :
    ParInv (par.set a v) := by
  intro i
  rw [getD_set]
  split
  · rename_i hc
    omega
  · exact h i

/-- Path-compressing find preserves the descending-parent invariant,
and the returned root is at most the argument. -/
theorem findAux_parInv :
    ∀ fuel x (par : List ℕ), ParInv par →
      ParInv (findAux par fuel x).2 ∧ (findAux par fuel x).1 ≤ x := by
  intro fuel
  induction fuel with
  | zero =>
    intro x par h
    exact ⟨h, le_refl x⟩
  | succ m ih =>
    intro x par h
    unfold findAux
    by_cases hp : par.getD x x = x
    · rw [if_pos hp]
      exact ⟨h, le_refl x⟩
    · rw [if_neg hp]
      have hlt : par.getD x x < x := lt_of_le_of_ne (h x) hp
      obtain ⟨h1, h2⟩ := ih (par.getD x x) par h
      constructor
      · show ParInv ((findAux par m (par.getD x x)).2.set x (findAux par m (par.getD x x)).1)
        exact ParInv_set h1 (by omega)
      · show (findAux par m (par.getD x x)).1 ≤ x
        omega

theorem findE_parInv {d : DisjointSets} (h : ParInv d.par) {x : Int} {r : ℕ × DisjointSets}
    (heq : d.findE x = .ok r) : ParInv r.2.par := by
  unfold DisjointSets.findE at heq
  split at heq
  · simp at heq
    subst heq
    exact (findAux_parInv d.n x.toNat d.par h).1
  · simp at heq

theorem applyOp_find (d : DisjointSets) (x : Int) :
    d.applyOp (DSOp.find x) =
      match d.findE x with
      | .ok r => r.2
      | .error _ => d := rfl

theorem applyOp_merge (d : DisjointSets) (x y : Int) :
    d.applyOp (DSOp.merge x y) =
      match d.findE x with
      | .error _ => d
      | .ok rx =>
        match rx.2.findE y with
        | .error _ => rx.2
        | .ok ry =>
          if rx.1 = ry.1 then ry.2
          else { ry.2 with
                 par := ry.2.par.set (Nat.max rx.1 ry.1) (Nat.min rx.1 ry.1)
                 k := ry.2.k - 1 } := rfl

/-- C4: starting from the all-singletons partition, every sequence of
find and merge operations on the `DisjointSets` structure preserves
the invariant `par i ≤ i`: merge always makes the numerically smaller
root the parent of the larger, and path compression only rewrites
parents to the root, which lies below every rewritten node. -/
theorem C4_runOps_par_le (n : ℕ) (ops : List DSOp) :
    ∀ i : ℕ, (DisjointSets.runOps n ops).par.getD i i ≤ i := by
  suffices h : ∀ (l : List DSOp) (d : DisjointSets), ParInv d.par →
      ParInv (l.foldl DisjointSets.applyOp d).par by
    intro i
    exact h ops (DisjointSets.mk0 n) (parInv_range n) i
  intro l
  induction l with
  | nil =>
    intro d h
    simpa using h
  | cons op t ih =>
    intro d h
    rw [List.foldl_cons]
    refine ih _ ?_
    cases op with
    | find x =>
      cases heq : d.findE x with
      | ok r => simpa [DisjointSets.applyOp, heq] using findE_parInv h heq
      | error e => simpa [DisjointSets.applyOp, heq] using h
    | merge x y =>
      cases heq : d.findE x with
      | error e => simpa [DisjointSets.applyOp, heq] using h
      | ok rx =>
        have h1 : ParInv rx.2.par := findE_parInv h heq
        cases heq2 : rx.2.findE y with
        | error e => simpa [DisjointSets.applyOp, heq, heq2] using h1
        | ok ry =>
          have h2 : ParInv ry.2.par := findE_parInv h1 heq2
          by_cases hr : rx.1 = ry.1
          · simpa [DisjointSets.applyOp, heq, heq2, hr] using h2
          · simp only [DisjointSets.applyOp, heq, heq2, if_neg hr]
            exact ParInv_set h2 (le_trans (Nat.min_le_left _ _) (Nat.le_max_left _ _))

/-! ### Claim C9 -/

theorem chainToRoot_mem_ne :
    ∀ fuel x (par : List ℕ) (y : ℕ), y ∈ chainToRoot par fuel x → par.getD y y ≠ y := by
  intro fuel
  induction fuel with
  | zero =>
    intro x par y h
    simp [chainToRoot] at h
  | succ m ih =>
    intro x par y h
    unfold chainToRoot at h
    by_cases hp : par.getD x x = x
    · rw [if_pos hp] at h
      simp at h
    · rw [if_neg hp] at h
      rcases List.mem_cons.mp h with rfl | h
      · exact hp
      · exact ih _ par y h

theorem chainToRoot_mem_le :
    ∀ fuel x (par : List ℕ), ParInv par →
      ∀ y ∈ chainToRoot par fuel x, y ≤ x := by
  intro fuel
  induction fuel with
  | zero =>
    intro x par _ y h
    simp [chainToRoot] at h
  | succ m ih =>
    intro x par hinv y h
    unfold chainToRoot at h
    by_cases hp : par.getD x x = x
    · rw [if_pos hp] at h
      simp at h
    · rw [if_neg hp] at h
      rcases List.mem_cons.mp h with rfl | h
      · exact le_refl y
      · have h1 := ih (par.getD x x) par hinv y h
        have h2 := hinv x
        omega

theorem rootOfAux_le :
    ∀ fuel x (par : List ℕ), ParInv par → rootOfAux par fuel x ≤ x := by
  intro fuel
  induction fuel with
  | zero =>
    intro x par _
    exact le_refl x
  | succ m ih =>
    intro x par h
    unfold rootOfAux
    by_cases hp : par.getD x x = x
    · rw [if_pos hp]
    · rw [if_neg hp]
      have := ih (par.getD x x) par h
      have := h x
      omega

theorem set_getD_eq_self {l : List ℕ} {a v d0 : ℕ} (h : a < l.length)
    (hv : l.getD a d0 = v) : l.set a v = l := by
  apply List.ext_getElem (by simp)
  intro i h1 h2
  rw [List.getElem_set]
  split
  · rename_i hc
    subst hc
    rw [List.getD_eq_getElem _ d0 h] at hv
    exact hv.symm
  · rfl

theorem rootOfAux_succ (par : List ℕ) (m x : ℕ) :
    rootOfAux par (m + 1) x =
      if par.getD x x = x then x else rootOfAux par m (par.getD x x) := rfl

theorem chainToRoot_succ (par : List ℕ) (m x : ℕ) :
    chainToRoot par (m + 1) x =
      if par.getD x x = x then [] else x :: chainToRoot par m (par.getD x x) := rfl

theorem findAux_succ (par : List ℕ) (m x : ℕ) :
    findAux par (m + 1) x =
      if par.getD x x = x then (x, par)
      else ((findAux par m (par.getD x x)).1,
        (findAux par m (par.getD x x)).2.set x (findAux par m (par.getD x x)).1) := rfl

theorem findAux_fixpoint (par : List ℕ) (x fuel : ℕ) (hfuel : 1 ≤ fuel)
    (hx : par.getD x x = x) : findAux par fuel x = (x, par) := by
  obtain ⟨m, rfl⟩ : ∃ m, fuel = m + 1 := ⟨fuel - 1, by omega⟩
  unfold findAux
  rw [if_pos hx]

theorem findAux_one_step (par : List ℕ) (x rt fuel : ℕ) (hfuel : 2 ≤ fuel)
    (hne : rt ≠ x) (hx : par.getD x x = rt) (hrt : par.getD rt rt = rt)
    (hlen : x < par.length) : findAux par fuel x = (rt, par) := by
  obtain ⟨m, rfl⟩ : ∃ m, fuel = m + 2 := ⟨fuel - 2, by omega⟩
  have hinner : findAux par (m + 1) rt = (rt, par) :=
    findAux_fixpoint par rt (m + 1) (by omega) hrt
  show findAux par (m + 1 + 1) x = (rt, par)
  rw [findAux_succ, hx, if_neg (by omega : ¬ rt = x), hinner]
  show (rt, par.set x rt) = (rt, par)
  rw [set_getD_eq_self hlen hx]

/-- Full characterisation of one path-compressing find under the
descending-parent invariant: the result is the chain root, every node
of the chain is rewritten to point at the root, and nothing else
changes. -/
theorem findAux_char :
    ∀ fuel x (par : List ℕ), ParInv par → x < fuel →
      (findAux par fuel x).1 = rootOfAux par fuel x ∧
      par.getD (rootOfAux par fuel x) (rootOfAux par fuel x) = rootOfAux par fuel x ∧
      (∀ y : ℕ, (findAux par fuel x).2.getD y y =
        if y ∈ chainToRoot par fuel x then rootOfAux par fuel x else par.getD y y) ∧
      (findAux par fuel x).2.length = par.length := by
  intro fuel
  induction fuel with
  | zero =>
    intro x par _ hx
    omega
  | succ m ih =>
    intro x par hinv hx
    by_cases hp : par.getD x x = x
    · have hfind : findAux par (m + 1) x = (x, par) := by
        rw [findAux_succ, if_pos hp]
      have hroot : rootOfAux par (m + 1) x = x := by
        rw [rootOfAux_succ, if_pos hp]
      have hchain : chainToRoot par (m + 1) x = [] := by
        rw [chainToRoot_succ, if_pos hp]
      rw [hfind, hroot, hchain]
      exact ⟨rfl, hp, fun y => by simp, rfl⟩
    · have hplt : par.getD x x < x := lt_of_le_of_ne (hinv x) hp
      have hxlen : x < par.length := by
        by_contra hc
        exact hp (List.getD_eq_default _ _ (by omega))
      obtain ⟨ih1, ih2, ih3, ih4⟩ := ih (par.getD x x) par hinv (by omega)
      have hroot : rootOfAux par (m + 1) x = rootOfAux par m (par.getD x x) := by
        rw [rootOfAux_succ, if_neg hp]
      have hchain : chainToRoot par (m + 1) x
          = x :: chainToRoot par m (par.getD x x) := by
        rw [chainToRoot_succ, if_neg hp]
      have hfind : findAux par (m + 1) x =
          ((findAux par m (par.getD x x)).1,
            (findAux par m (par.getD x x)).2.set x (findAux par m (par.getD x x)).1) := by
        rw [findAux_succ, if_neg hp]
      refine ⟨?_, ?_, ?_, ?_⟩
      · rw [hfind, hroot]
        exact ih1
      · rw [hroot]
        exact ih2
      · intro y
        rw [hfind, hroot, hchain]
        show ((findAux par m (par.getD x x)).2.set x (findAux par m (par.getD x x)).1).getD y y
          = if y ∈ x :: chainToRoot par m (par.getD x x)
            then rootOfAux par m (par.getD x x) else par.getD y y
        rw [getD_set]
        by_cases hxy : x = y
        · subst hxy
          rw [if_pos ⟨rfl, by rw [ih4]; exact hxlen⟩, if_pos (List.mem_cons_self x _)]
          exact ih1
        · rw [if_neg (by tauto), ih3 y]
          have : (y ∈ x :: chainToRoot par m (par.getD x x))
              ↔ (y ∈ chainToRoot par m (par.getD x x)) := by
            rw [List.mem_cons]
            constructor
            · rintro (rfl | h)
              · omega
              · exact h
            · exact Or.inr
          by_cases hmem : y ∈ chainToRoot par m (par.getD x x)
          · rw [if_pos hmem, if_pos (this.mpr hmem)]
          · rw [if_neg hmem, if_neg (fun hc => hmem (this.mp hc))]
      · rw [hfind]
        show ((findAux par m (par.getD x x)).2.set x _).length = par.length
        rw [List.length_set]
        exact ih4

theorem ParInv_of_forall_lt {l : List ℕ} (h : ∀ i, i < l.length → l.getD i i ≤ i) :
    ParInv l := by
  intro i
  by_cases hi : i < l.length
  · exact h i hi
  · rw [List.getD_eq_default _ _ (by omega)]

/-- C9: under the descending-parent invariant, `find x` returns the
root of the parent chain of `x`, rewrites the parent of every visited
node (the chain below the root) to point directly at the root and
changes nothing else; consequently an immediately repeated `find x`
returns the same root without modifying the parent table, and the
argument then points at the root directly (at most one parent link is
followed). -/
theorem C9_find_correct (d : DisjointSets) (x : Int) (r : ℕ) (d' : DisjointSets)
    (hinv : ParInv d.par) (heq : d.findE x = .ok (r, d')) :
    r = rootOfAux d.par d.n x.toNat ∧
    d'.par.getD r r = r ∧
    (∀ y ∈ chainToRoot d.par d.n x.toNat, d'.par.getD y y = r) ∧
    (∀ y : ℕ, y ∉ chainToRoot d.par d.n x.toNat → d'.par.getD y y = d.par.getD y y) ∧
    d'.par.getD x.toNat x.toNat = r ∧
    d'.findE x = .ok (r, d') := by
  unfold DisjointSets.findE at heq
  split at heq
  case isFalse => simp at heq
  case isTrue hx =>
    simp only [Except.ok.injEq, Prod.mk.injEq] at heq
    obtain ⟨hr, hd'⟩ := heq
    have hxn : x.toNat < d.n := by omega
    obtain ⟨c1, c2, c3, c4⟩ := findAux_char d.n x.toNat d.par hinv hxn
    have hpar' : d'.par = (findAux d.par d.n x.toNat).2 := by
      rw [← hd']
    have hn' : d'.n = d.n := by
      rw [← hd']
    have hrt : r = rootOfAux d.par d.n x.toNat := by
      rw [← hr, c1]
    have hrtnotchain : r ∉ chainToRoot d.par d.n x.toNat := by
      intro hc
      exact chainToRoot_mem_ne d.n x.toNat d.par r hc (by rw [hrt]; exact c2)
    have hrootfix : d'.par.getD r r = r := by
      rw [hpar', c3 r, if_neg hrtnotchain, hrt]
      exact c2
    have hchain : ∀ y ∈ chainToRoot d.par d.n x.toNat, d'.par.getD y y = r := by
      intro y hy
      rw [hpar', c3 y, if_pos hy, hrt]
    have hother : ∀ y : ℕ, y ∉ chainToRoot d.par d.n x.toNat →
        d'.par.getD y y = d.par.getD y y := by
      intro y hy
      rw [hpar', c3 y, if_neg hy]
    have hxpoint : d'.par.getD x.toNat x.toNat = r := by
      by_cases hp : d.par.getD x.toNat x.toNat = x.toNat
      · have hch : chainToRoot d.par d.n x.toNat = [] := by
          obtain ⟨m, hm⟩ : ∃ m, d.n = m + 1 := ⟨d.n - 1, by omega⟩
          rw [hm, chainToRoot_succ, if_pos hp]
        have hrx : r = x.toNat := by
          obtain ⟨m, hm⟩ : ∃ m, d.n = m + 1 := ⟨d.n - 1, by omega⟩
          rw [hrt, hm, rootOfAux_succ, if_pos hp]
        rw [hother x.toNat (by rw [hch]; simp), hp, hrx]
      · have hmem : x.toNat ∈ chainToRoot d.par d.n x.toNat := by
          obtain ⟨m, hm⟩ : ∃ m, d.n = m + 1 := ⟨d.n - 1, by omega⟩
          rw [hm, chainToRoot_succ, if_neg hp]
          exact List.mem_cons_self _ _
        exact hchain x.toNat hmem
    refine ⟨hrt, hrootfix, hchain, hother, hxpoint, ?_⟩
    unfold DisjointSets.findE
    rw [if_pos (show 0 ≤ x ∧ x < (d'.n : Int) by rw [hn']; exact hx)]
    by_cases hp : d.par.getD x.toNat x.toNat = x.toNat
    · have hch : chainToRoot d.par d.n x.toNat = [] := by
        obtain ⟨m, hm⟩ : ∃ m, d.n = m + 1 := ⟨d.n - 1, by omega⟩
        rw [hm, chainToRoot_succ, if_pos hp]
      have hrx : r = x.toNat := by
        obtain ⟨m, hm⟩ : ∃ m, d.n = m + 1 := ⟨d.n - 1, by omega⟩
        rw [hrt, hm, rootOfAux_succ, if_pos hp]
      have hfix : d'.par.getD x.toNat x.toNat = x.toNat := by
        rw [hxpoint, hrx]
      have : findAux d'.par d'.n x.toNat = (x.toNat, d'.par) :=
        findAux_fixpoint d'.par x.toNat d'.n (by omega) hfix
      rw [this, hrx]
    · have hrltx : r < x.toNat := by
        have h1 : rootOfAux d.par d.n x.toNat ≤ d.par.getD x.toNat x.toNat := by
          obtain ⟨m, hm⟩ : ∃ m, d.n = m + 1 := ⟨d.n - 1, by omega⟩
          rw [hm, rootOfAux_succ, if_neg hp]
          exact rootOfAux_le m (d.par.getD x.toNat x.toNat) d.par hinv
        have h2 := lt_of_le_of_ne (hinv x.toNat) hp
        omega
      have hxlen : x.toNat < d.par.length := by
        by_contra hc
        exact hp (List.getD_eq_default _ _ (by omega))
      have hxlen' : x.toNat < d'.par.length := by
        rw [hpar', c4]
        exact hxlen
      have : findAux d'.par d'.n x.toNat = (r, d'.par) := by
        refine findAux_one_step d'.par x.toNat r d'.n (by omega) (by omega)
          hxpoint hrootfix hxlen'
      rw [this]

/-- Witness for C9: a three-element structure with the chain
`2 → 1 → 0`; find compresses both visited nodes onto the root 0 and a
second find is the identity. -/
theorem C9_find_correct_witness :
    (0 : ℕ) = rootOfAux [0,0,1] 3 (2 : Int).toNat ∧
    ([0,0,0] : List ℕ).getD 0 0 = 0 ∧
    (∀ y ∈ chainToRoot [0,0,1] 3 (2 : Int).toNat, ([0,0,0] : List ℕ).getD y y = 0) ∧
    (∀ y : ℕ, y ∉ chainToRoot [0,0,1] 3 (2 : Int).toNat →
      ([0,0,0] : List ℕ).getD y y = ([0,0,1] : List ℕ).getD y y) ∧
    ([0,0,0] : List ℕ).getD (2 : Int).toNat (2 : Int).toNat = 0 ∧
    DisjointSets.findE { n := 3, k := 1, par := [0,0,0] } 2
      = .ok (0, { n := 3, k := 1, par := [0,0,0] }) :=
  C9_find_correct { n := 3, k := 1, par := [0,0,1] } 2 0
    { n := 3, k := 1, par := [0,0,0] }
    (ParInv_of_forall_lt (by decide)) (by decide)

/-! ### Claim C3 -/

theorem foldl_min_le_init : ∀ (t : List ℕ) (h : ℕ), t.foldl Nat.min h ≤ h := by
  intro t
  induction t with
  | nil => intro h; simp
  | cons b t ih =>
    intro h
    rw [List.foldl_cons]
    exact le_trans (ih (Nat.min h b)) (Nat.min_le_left h b)

theorem minList_le : ∀ (l : List ℕ) (a : ℕ), a ∈ l → minList l ≤ a := by
  intro l
  match l with
  | [] => intro a ha; simp at ha
  | h :: t =>
    suffices hs : ∀ (t : List ℕ) (h a : ℕ), a ∈ h :: t → t.foldl Nat.min h ≤ a by
      intro a ha
      exact hs t h a ha
    intro t
    induction t with
    | nil =>
      intro h a ha
      simp at ha
      simp [ha]
    | cons b t ih =>
      intro h a ha
      rw [List.foldl_cons]
      rcases List.mem_cons.mp ha with rfl | ha2
      · exact le_trans (foldl_min_le_init t (Nat.min a b)) (Nat.min_le_left a b)
      · rcases List.mem_cons.mp ha2 with rfl | ha3
        · exact le_trans (foldl_min_le_init t (Nat.min h a)) (Nat.min_le_right h a)
        · exact ih (Nat.min h b) a (List.mem_cons_of_mem _ ha3)

/-- Under the descending-parent invariant, `get_count` answers a size
that is present in the multiset of current root sizes, hence at least
the smallest present size. -/
theorem get_count_ge_smallest {g : CGiniDisjointSets} {r : Int} {a : ℕ}
    (hinv : ParInv g.ds.par) (h : g.get_count r = .ok a) :
    g.get_smallest_count ≤ a := by
  unfold CGiniDisjointSets.get_count at h
  split at h
  case isFalse => simp at h
  case isTrue hr =>
    simp only [Except.ok.injEq] at h
    have hrn : r.toNat < g.ds.n := by omega
    set rt := rootOfAux g.ds.par g.ds.n r.toNat with hrt
    have hle : rt ≤ r.toNat := rootOfAux_le g.ds.n r.toNat g.ds.par hinv
    have hfix : g.ds.par.getD rt rt = rt :=
      (findAux_char g.ds.n r.toNat g.ds.par hinv hrn).2.1
    have hmem : g.cnt.getD rt 0 ∈ g.rootSizes := by
      unfold CGiniDisjointSets.rootSizes
      refine List.mem_map.mpr ⟨rt, ?_, rfl⟩
      refine List.mem_filter.mpr ⟨List.mem_range.mpr (by omega), ?_⟩
      simpa using hfix
    rw [← h]
    exact minList_le g.rootSizes _ hmem

theorem genieWalk_succ (st : CGenie) (m fuel : ℕ) (last : Int) :
    genieWalk st m (fuel + 1) last = (do
      let e1 ← rdI st.mst_i (2 * last)
      let e2 ← rdI st.mst_i (2 * last + 1)
      let r1 ← rdI st.denoise_index_rev e1
      let r2 ← rdI st.denoise_index_rev e2
      let c1 ← st.ds.get_count r1
      let c2 ← st.ds.get_count r2
      if c1 ≠ m ∧ c2 ≠ m then do
        let last1 ← rdI st.next_edge last
        genieWalk st m fuel last1
      else pure last) := rfl

/-- The Genie walk can only stop at an edge one of whose endpoints
lies in a set of size exactly `m`. -/
theorem genieWalk_exit (st : CGenie) (m : ℕ) :
    ∀ fuel last l, genieWalk st m fuel last = .ok l →
      ∃ c1 c2, countOfEndpoint st l 0 = .ok c1 ∧ countOfEndpoint st l 1 = .ok c2 ∧
        (c1 = m ∨ c2 = m) := by
  intro fuel
  induction fuel with
  | zero =>
    intro last l h
    simp [genieWalk] at h
  | succ f ih =>
    intro last l h
    rw [genieWalk_succ] at h
    obtain ⟨e1, he1, h⟩ := exceptBind_ok.mp h
    obtain ⟨e2, he2, h⟩ := exceptBind_ok.mp h
    obtain ⟨r1, hr1, h⟩ := exceptBind_ok.mp h
    obtain ⟨r2, hr2, h⟩ := exceptBind_ok.mp h
    obtain ⟨c1, hc1, h⟩ := exceptBind_ok.mp h
    obtain ⟨c2, hc2, h⟩ := exceptBind_ok.mp h
    split at h
    · obtain ⟨last1, hlast1, h⟩ := exceptBind_ok.mp h
      exact ih last1 l h
    · rename_i hstop
      have hl : l = last := by
        simp [pure, Except.pure] at h
        omega
      refine ⟨c1, c2, ?_, ?_, by tauto⟩
      · rw [hl]
        unfold countOfEndpoint
        rw [show (2 * last + (0 : Int)) = 2 * last by ring]
        rw [he1, exceptOk_bind, hr1, exceptOk_bind, hc1]
      · rw [hl]
        unfold countOfEndpoint
        rw [he2, exceptOk_bind, hr2, exceptOk_bind, hc2]

/-- C3: whenever the Genie branch selects an edge (the walk terminates
at edge slot `l`), the sizes `a` and `b` of the two endpoint sets
before the merge satisfy `min a b = get_smallest_count`: the merge
always involves a cluster of the smallest present size. -/
theorem C3_genie_branch_min (st : CGenie) (lastm : ℕ) (l : Int) (a b : ℕ)
    (hinv : ParInv st.ds.ds.par)
    (hsel : genieSelect st lastm = .ok l)
    (ha : countOfEndpoint st l 0 = .ok a) (hb : countOfEndpoint st l 1 = .ok b) :
    min a b = st.ds.get_smallest_count := by
  unfold genieSelect at hsel
  obtain ⟨c1, c2, hc1, hc2, hm⟩ :=
    genieWalk_exit st st.ds.get_smallest_count (st.n + 1) _ l hsel
  have hac : a = c1 := by
    rw [ha] at hc1
    injection hc1
  have hbc : b = c2 := by
    rw [hb] at hc2
    injection hc2
  have hga : st.ds.get_smallest_count ≤ a := by
    unfold countOfEndpoint at ha
    obtain ⟨v, hv, ha⟩ := exceptBind_ok.mp ha
    obtain ⟨r, hr, ha⟩ := exceptBind_ok.mp ha
    exact get_count_ge_smallest hinv ha
  have hgb : st.ds.get_smallest_count ≤ b := by
    unfold countOfEndpoint at hb
    obtain ⟨v, hv, hb⟩ := exceptBind_ok.mp hb
    obtain ⟨r, hr, hb⟩ := exceptBind_ok.mp hb
    exact get_count_ge_smallest hinv hb
  rcases hm with h | h <;> omega

/-- Witness for C3: the path-graph state just after skip-list
initialisation (all sets singletons): the walk stops at edge 0, both
endpoint sets have size 1 and the smallest present size is 1. -/
theorem C3_genie_branch_min_witness :
    min 1 1 = (CGiniDisjointSets.mk0 5).get_smallest_count :=
  C3_genie_branch_min
    { mst_d := [1,2,3,4], mst_i := [0,1,1,2,2,3,3,4], n := 5, noise_leaves := false
      deg := [1,2,2,2,1], noise_count := 0
      denoise_index := idN 5, denoise_index_rev := idN 5
      next_edge := [1,2,3,4,0], prev_edge := [-1,0,1,2,0]
      curidx := 0, lastidx := 0, ds := CGiniDisjointSets.mk0 5 }
    0 0 1 1 (ParInv_of_forall_lt (by decide)) (by decide) (by decide) (by decide)

/-! ### Claim C10 -/

/-- The noise-mode skip-list loop leaves `lastidx` unchanged unless it
links at least one edge joining two non-noise vertices. -/
theorem skiplistNoiseLoop_last (st : CGenie) :
    ∀ rem i cur last ne pe res,
      skiplistNoiseLoop st i rem cur last ne pe = .ok res →
      res.2.1 = last ∨ ∃ t, i ≤ t ∧ t < i + rem ∧ edgeJoinsNonNoise st t := by
  intro rem
  induction rem with
  | zero =>
    intro i cur last ne pe res h
    simp [skiplistNoiseLoop] at h
    left
    rw [← h]
  | succ m ih =>
    intro i cur last ne pe res h
    unfold skiplistNoiseLoop at h
    obtain ⟨i1, hi1, h⟩ := exceptBind_ok.mp h
    obtain ⟨i2, hi2, h⟩ := exceptBind_ok.mp h
    obtain ⟨d1, hd1, h⟩ := exceptBind_ok.mp h
    obtain ⟨d2, hd2, h⟩ := exceptBind_ok.mp h
    split at h
    · rename_i hq
      exact Or.inr ⟨i, le_refl i, by omega, i1, i2, d1, d2, hi1, hi2, hd1, hd2, hq.1, hq.2⟩
    · rcases ih (i + 1) cur last ne pe res h with h1 | ⟨t, ht1, ht2, ht3⟩
      · exact Or.inl h1
      · exact Or.inr ⟨t, by omega, by omega, ht3⟩

/-- C10: in noise-leaves mode the final skip-list write
`next_edge lastidx := n - 1` is in bounds only when some MST edge has
both endpoints of degree above 1 (otherwise `lastidx` is still `-1`);
and for the constructor-accepted star graph, where every edge touches
a leaf, `apply_genie` reaches the out-of-bounds write before
`do_genie` can raise its cluster-count error. -/
theorem C10_skiplist_oob :
    (∀ st st' : CGenie, st.noise_leaves = true → skiplist_init st = .ok st' →
      ∃ t, t < st.n - 1 ∧ edgeJoinsNonNoise st t) ∧
    (cGenieInit [1,1,1,1] [0,1,0,2,0,3,0,4] 5 true).toOption.isSome = true ∧
    ((cGenieInit [1,1,1,1] [0,1,0,2,0,3,0,4] 5 true).bind skiplist_init)
      = .error .oobAccess ∧
    ((cGenieInit [1,1,1,1] [0,1,0,2,0,3,0,4] 5 true).bind
      (fun st => apply_genie st 1 (mkRat 1 2))) = .error .oobAccess := by
  refine ⟨?_, by decide, by decide, by decide⟩
  intro st st' hnl h
  unfold skiplist_init at h
  rw [hnl] at h
  simp only [ite_true] at h
  obtain ⟨r, hr, h⟩ := exceptBind_ok.mp h
  obtain ⟨ne1, hne1, h⟩ := exceptBind_ok.mp h
  have hlast : 0 ≤ r.2.1 := (wrI_ok_iff.mp hne1).1.1
  rcases skiplistNoiseLoop_last st (st.n - 1) 0 (-1) (-1) st.next_edge st.prev_edge r hr
    with h1 | ⟨t, ht1, ht2, ht3⟩
  · rw [h1] at hlast
    omega
  · exact ⟨t, by omega, ht3⟩

/-- Witness for C10: the noise-mode path graph on 4 vertices, whose
middle edge joins two non-noise vertices, passes `skiplist_init`; the
theorem then exhibits such an edge. -/
theorem C10_skiplist_oob_witness :
    ∃ t, t < (4 : ℕ) - 1 ∧ edgeJoinsNonNoise
      { mst_d := [1,2,3], mst_i := [0,1,1,2,2,3], n := 4, noise_leaves := true
        deg := [1,2,2,1], noise_count := 2
        denoise_index := [1,2,0,0], denoise_index_rev := [-1,0,1,-1]
        next_edge := [0,0,0,0], prev_edge := [0,0,0,0]
        curidx := 0, lastidx := 0, ds := CGiniDisjointSets.mk0 0 } t :=
  C10_skiplist_oob.1
    { mst_d := [1,2,3], mst_i := [0,1,1,2,2,3], n := 4, noise_leaves := true
      deg := [1,2,2,1], noise_count := 2
      denoise_index := [1,2,0,0], denoise_index_rev := [-1,0,1,-1]
      next_edge := [0,0,0,0], prev_edge := [0,0,0,0]
      curidx := 0, lastidx := 0, ds := CGiniDisjointSets.mk0 0 }
    { mst_d := [1,2,3], mst_i := [0,1,1,2,2,3], n := 4, noise_leaves := true
      deg := [1,2,2,1], noise_count := 2
      denoise_index := [1,2,0,0], denoise_index_rev := [-1,0,1,-1]
      next_edge := [0,3,0,0], prev_edge := [0,-1,0,0]
      curidx := 1, lastidx := 1, ds := CGiniDisjointSets.mk0 0 }
    rfl (by decide)

/-! ### Claim C2 -/

theorem giniNumAux_le (s : List ℕ) :
    ∀ (k i : ℤ), i + s.length ≤ k + 1 →
      giniNumAux k i s ≤ (k - 1) * (sumList s : ℤ) := by
  induction s with
  | nil =>
    intro k i _
    simp [giniNumAux, sumList]
  | cons a t ih =>
    intro k i hik
    show (2 * i - k - 1) * (a : ℤ) + giniNumAux k (i + 1) t
      ≤ (k - 1) * ((a : ℤ) + (sumList t : ℤ))
    have h1 : giniNumAux k (i + 1) t ≤ (k - 1) * (sumList t : ℤ) := by
      refine ih k (i + 1) ?_
      simp at hik
      omega
    have h2 : (2 * i - k - 1) * (a : ℤ) ≤ (k - 1) * (a : ℤ) := by
      refine mul_le_mul_of_nonneg_right ?_ (by positivity)
      simp at hik
      omega
    nlinarith [h1, h2]

theorem sumList_cast (s : List ℕ) : ((sumList s : ℕ) : ℤ) = sumList s := rfl

/-- The Gini index of any multiset of sizes never exceeds 1 (in
particular the Genie branch is never taken at threshold 1). -/
theorem giniOf_le_one (sizes : List ℕ) : giniOf sizes ≤ 1 := by
  unfold giniOf
  rw [Rat.divInt_eq_div]
  generalize sortAsc sizes = s
  have hnumle : giniNumAux (s.length : ℤ) 1 s ≤ ((s.length : ℤ) - 1) * (sumList s : ℤ) :=
    giniNumAux_le s (s.length : ℤ) 1 (by omega)
  rcases lt_trichotomy (((s.length : ℤ) - 1) * (sumList s : ℤ)) 0 with h | h | h
  · exfalso
    have hlen : s.length ≠ 0 := by
      intro hc
      have hnil : s = [] := List.length_eq_zero.mp hc
      rw [hnil] at h
      simp [sumList] at h
    have h1 : (1 : ℤ) ≤ (s.length : ℤ) := by
      have : 1 ≤ s.length := by omega
      exact_mod_cast this
    have h2 : (0 : ℤ) ≤ (sumList s : ℤ) := by positivity
    nlinarith
  · rw [h]
    simp
  · rw [div_le_one (by exact_mod_cast h)]
    exact_mod_cast hnumle

theorem get_gini_le_one (g : CGiniDisjointSets) : g.get_gini ≤ 1 :=
  giniOf_le_one g.rootSizes

theorem idN_length (n : ℕ) : (idN n).length = n := by
  unfold idN
  rw [List.length_map, List.length_range]

theorem idN_getD (n u : ℕ) (hu : u < n) : (idN n).getD u 0 = (u : Int) := by
  unfold idN
  rw [List.getD_eq_getElem _ 0 (by rw [List.length_map, List.length_range]; exact hu)]
  rw [List.getElem_map]
  simp [List.getElem_range]

theorem rdI_idN {n : ℕ} {x : Int} {v : Int} (h : rdI (idN n) x = .ok v) :
    0 ≤ x ∧ x.toNat < n ∧ v = x := by
  obtain ⟨⟨h0, hlen0⟩, hget⟩ := rdI_ok_iff.mp h
  have hlen : x.toNat < n := by
    rw [idN_length] at hlen0
    exact hlen0
  refine ⟨h0, hlen, ?_⟩
  have hval : (idN n).get ⟨x.toNat, hlen0⟩ = (x.toNat : Int) := by
    rw [List.get_eq_getElem, ← List.getD_eq_getElem (idN n) 0, idN_getD n x.toNat hlen]
  rw [← hget, hval]
  omega

theorem rdI_idN_nat {n u : ℕ} (hu : u < n) : rdI (idN n) (u : Int) = .ok (u : Int) := by
  rw [rdI_nat_getD 0 (by rw [idN_length]; exact hu), idN_getD n u hu]

/-- Shape of the state built by the non-noise constructor. -/
theorem cGenieInit_false_shape {d : List ℚ} {ei : List Int} {n : ℕ} {st : CGenie}
    (h : cGenieInit d ei n false = .ok st) :
    st.mst_i = ei ∧ st.n = n ∧ st.noise_leaves = false ∧ st.noise_count = 0 ∧
    st.denoise_index = idN n ∧ st.denoise_index_rev = idN n ∧
    st.next_edge = List.replicate n 0 ∧ st.prev_edge = List.replicate n 0 := by
  unfold cGenieInit at h
  obtain ⟨u, hu, h⟩ := exceptBind_ok.mp h
  obtain ⟨dg, hdg, h⟩ := exceptBind_ok.mp h
  simp only [Bool.false_eq_true, if_false, ite_false] at h
  simp only [pure, Except.pure, Except.ok.injEq] at h
  rw [← h]
  exact ⟨rfl, rfl, rfl, rfl, rfl, rfl, rfl, rfl⟩

/-- The non-noise skip-list chain loop: always succeeds, and the
resulting table holds `u + 1` on the written range and is untouched
elsewhere. -/
theorem skiplistChainLoop_ok :
    ∀ rem i (ne pe : List Int), i + rem ≤ ne.length → i + rem ≤ pe.length →
      ∃ ne1 pe1, skiplistChainLoop i rem ne pe = .ok (ne1, pe1) ∧
        ne1.length = ne.length ∧
        (∀ u : ℕ, ne1.getD u 0 =
          if i ≤ u ∧ u < i + rem then (u : Int) + 1 else ne.getD u 0) := by
  intro rem
  induction rem with
  | zero =>
    intro i ne pe _ _
    refine ⟨ne, pe, by simp [skiplistChainLoop], rfl, fun u => ?_⟩
    rw [if_neg (by omega)]
  | succ m ih =>
    intro i ne pe hne hpe
    unfold skiplistChainLoop
    rw [wrI_nat_ok (by omega : i < ne.length) _, exceptOk_bind]
    rw [wrI_nat_ok (by omega : i < pe.length) _, exceptOk_bind]
    obtain ⟨ne1, pe1, heq, hlen, hval⟩ := ih (i + 1) (ne.set i ((i : Int) + 1))
      (pe.set i ((i : Int) - 1)) (by rw [List.length_set]; omega)
      (by rw [List.length_set]; omega)
    refine ⟨ne1, pe1, heq, by rw [hlen, List.length_set], fun u => ?_⟩
    rw [hval u, getD_set]
    by_cases h1 : i + 1 ≤ u ∧ u < i + 1 + m
    · rw [if_pos h1, if_pos (by omega)]
    · rw [if_neg h1]
      by_cases h2 : i = u
      · subst h2
        rw [if_pos ⟨rfl, by omega⟩, if_pos (by omega)]
      · rw [if_neg (by tauto), if_neg (by omega)]

/-- Shape of the state after non-noise skip-list initialisation. -/
theorem skiplist_init_false_shape {st st' : CGenie}
    (hnl : st.noise_leaves = false) (hlen : st.next_edge.length = st.n)
    (hplen : st.prev_edge.length = st.n)
    (h : skiplist_init st = .ok st') :
    st'.curidx = 0 ∧ st'.mst_i = st.mst_i ∧ st'.n = st.n ∧
    st'.noise_count = st.noise_count ∧ st'.denoise_index = st.denoise_index ∧
    st'.denoise_index_rev = st.denoise_index_rev ∧ st'.ds = st.ds ∧
    (∀ u : ℕ, u < st.n - 1 → rdI st'.next_edge (u : Int) = .ok ((u : Int) + 1)) := by
  unfold skiplist_init at h
  rw [hnl] at h
  simp only [Bool.false_eq_true, if_false, ite_false] at h
  obtain ⟨ne1, pe1, heq, hlen1, hval⟩ := skiplistChainLoop_ok (st.n - 1) 0
    st.next_edge st.prev_edge (by omega) (by omega)
  rw [heq, exceptOk_bind] at h
  simp only [pure, Except.pure, Except.ok.injEq] at h
  rw [← h]
  refine ⟨rfl, rfl, rfl, rfl, rfl, rfl, rfl, fun u hu => ?_⟩
  show rdI ne1 (u : Int) = .ok ((u : Int) + 1)
  rw [rdI_nat_getD 0 (by omega : u < ne1.length), hval u, if_pos (by omega)]

theorem merge_ok_proj {g g1 : CGiniDisjointSets} {x y : Int}
    (h : g.merge x y = .ok g1) : g.ds.mergeE x y = .ok g1.ds := by
  have hp := CGiniDisjointSets.merge_proj g x y
  rw [h] at hp
  simpa [Except.map] using hp.symm

theorem gfindE_proj {g : CGiniDisjointSets} {x : Int} {fr : ℕ × CGiniDisjointSets}
    (h : g.findE x = .ok fr) : g.ds.findE x = .ok (fr.1, fr.2.ds) := by
  unfold CGiniDisjointSets.findE at h
  cases heq : g.ds.findE x with
  | error e =>
    rw [heq] at h
    simp [Except.map] at h
  | ok p =>
    rw [heq] at h
    simp only [Except.map, Except.ok.injEq] at h
    rw [← h]

theorem doGenieLoop_succ (g : ℚ) (t : ℕ) (st : CGenie) (lastm : ℕ) :
    doGenieLoop g (t + 1) st lastm =
      if st.ds.get_gini > g then (do
        let r ← genieBranch st lastm
        doGenieLoop g t r.1 r.2)
      else (do
        let i1 ← rdI st.mst_i (2 * st.curidx)
        let i2 ← rdI st.mst_i (2 * st.curidx + 1)
        let cur1 ← rdI st.next_edge st.curidx
        let r1 ← rdI st.denoise_index_rev i1
        let r2 ← rdI st.denoise_index_rev i2
        let g1 ← st.ds.merge r1 r2
        doGenieLoop g t { st with curidx := cur1, ds := g1 } lastm) := rfl

theorem slMergeLoop_succ (ei : List Int) (i m : ℕ) (d : DisjointSets) :
    slMergeLoop ei i (m + 1) d = (do
      let i1 ← rdI ei (2 * (i : Int))
      let i2 ← rdI ei (2 * (i : Int) + 1)
      let d1 ← d.mergeE i1 i2
      slMergeLoop ei (i + 1) m d1) := rfl

/-- Core simulation for the single-linkage equivalence: at threshold 1
the Gini condition never fires (the Gini index is at most 1), so every
iteration consumes the cursor edge, the cursor walks the initial chain
`c, c+1, ...`, and the wrapped union-find evolves exactly as the plain
single-linkage merge loop over edges `c, ..., c+t-1`. -/
theorem doGenie_sl_sim (ei : List Int) (n : ℕ) :
    ∀ t c (st : CGenie) (lastm : ℕ) (res : CGenie),
      st.mst_i = ei → st.denoise_index_rev = idN n → st.denoise_index = idN n →
      st.n = n →
      (∀ u : ℕ, u < n - 1 → rdI st.next_edge (u : Int) = .ok ((u : Int) + 1)) →
      st.curidx = ((c : ℕ) : Int) → c + t ≤ n - 1 →
      doGenieLoop 1 t st lastm = .ok res →
      slMergeLoop ei c t st.ds.ds = .ok res.ds.ds ∧
        res.denoise_index_rev = idN n ∧ res.denoise_index = idN n ∧ res.n = n := by
  intro t
  induction t with
  | zero =>
    intro c st lastm res hmst hrev hind hn hne hcur hb h
    simp only [doGenieLoop, Except.ok.injEq] at h
    rw [← h]
    exact ⟨by simp [slMergeLoop], hrev, hind, hn⟩
  | succ m ih =>
    intro c st lastm res hmst hrev hind hn hne hcur hb h
    rw [doGenieLoop_succ, if_neg (not_lt.mpr (get_gini_le_one st.ds))] at h
    obtain ⟨i1, hi1, h⟩ := exceptBind_ok.mp h
    obtain ⟨i2, hi2, h⟩ := exceptBind_ok.mp h
    obtain ⟨cur1, hcur1, h⟩ := exceptBind_ok.mp h
    obtain ⟨r1, hr1, h⟩ := exceptBind_ok.mp h
    obtain ⟨r2, hr2, h⟩ := exceptBind_ok.mp h
    obtain ⟨g1, hg1, h⟩ := exceptBind_ok.mp h
    rw [hmst, hcur] at hi1 hi2
    rw [hcur] at hcur1
    rw [hrev] at hr1 hr2
    have hcur1v : cur1 = (c : Int) + 1 := by
      rw [hne c (by omega)] at hcur1
      injection hcur1 with hc
      rw [← hc]
    have hr1v : r1 = i1 := (rdI_idN hr1).2.2
    have hr2v : r2 = i2 := (rdI_idN hr2).2.2
    have hmerge : st.ds.ds.mergeE i1 i2 = .ok g1.ds := by
      rw [← hr1v, ← hr2v]
      exact merge_ok_proj hg1
    obtain ⟨hsl, hrev', hind', hn'⟩ := ih (c + 1)
      { st with curidx := cur1, ds := g1 } lastm res hmst hrev hind hn hne
      (by show cur1 = ((c + 1 : ℕ) : Int); rw [hcur1v]; push_cast; ring)
      (by omega) h
    refine ⟨?_, hrev', hind', hn'⟩
    rw [slMergeLoop_succ, hi1, exceptOk_bind, hi2, exceptOk_bind, hmerge, exceptOk_bind]
    exact hsl

theorem getLabelsLoop_succ (st : CGenie) (i rem : ℕ) (rid : List Int) (c : Int)
    (res : List Int) (ds : CGiniDisjointSets) :
    getLabelsLoop st i (rem + 1) rid c res ds = (do
      let ri ← rdI st.denoise_index_rev (i : Int)
      if ri ≥ 0 then do
        let fr ← ds.findE ri
        let j ← rdI st.denoise_index (fr.1 : Int)
        let rj ← rdI rid j
        if rj < 0 then do
          let rid1 ← wrI rid j c
          let res1 ← wrI res (i : Int) c
          getLabelsLoop st (i + 1) rem rid1 (c + 1) res1 fr.2
        else do
          let res1 ← wrI res (i : Int) rj
          getLabelsLoop st (i + 1) rem rid c res1 fr.2
      else do
        let res1 ← wrI res (i : Int) (-1)
        getLabelsLoop st (i + 1) rem rid c res1 ds) := rfl

theorem slLabelsLoop_succ (n : ℕ) (i rem : ℕ) (rid : List Int) (c : Int)
    (res : List Int) (d : DisjointSets) :
    slLabelsLoop n i (rem + 1) rid c res d = (do
      let fr ← d.findE (i : Int)
      let rj ← rdI rid (fr.1 : Int)
      if rj < 0 then do
        let rid1 ← wrI rid (fr.1 : Int) c
        let res1 ← wrI res (i : Int) c
        slLabelsLoop n (i + 1) rem rid1 (c + 1) res1 fr.2
      else do
        let res1 ← wrI res (i : Int) rj
        slLabelsLoop n (i + 1) rem rid c res1 fr.2) := rfl

/-- Label extraction through the identity denoise tables coincides
with the direct single-linkage label extraction on the wrapped
union-find. -/
theorem labels_sl_sim (st : CGenie) (hrev : st.denoise_index_rev = idN st.n)
    (hind : st.denoise_index = idN st.n) :
    ∀ rem i rid c res (g : CGiniDisjointSets) out,
      getLabelsLoop st i rem rid c res g = .ok out →
      slLabelsLoop st.n i rem rid c res g.ds = .ok (out.1, out.2.ds) := by
  intro rem
  induction rem with
  | zero =>
    intro i rid c res g out h
    simp only [getLabelsLoop, Except.ok.injEq] at h
    rw [← h]
    simp [slLabelsLoop]
  | succ m ih =>
    intro i rid c res g out h
    rw [getLabelsLoop_succ] at h
    obtain ⟨ri, hri, h⟩ := exceptBind_ok.mp h
    rw [hrev] at hri
    obtain ⟨hge0, hin, hriv⟩ := rdI_idN hri
    subst hriv
    rw [if_pos (by positivity : (i : Int) ≥ 0)] at h
    obtain ⟨fr, hfr, h⟩ := exceptBind_ok.mp h
    obtain ⟨j, hj, h⟩ := exceptBind_ok.mp h
    rw [hind] at hj
    have hjv : j = (fr.1 : Int) := (rdI_idN hj).2.2
    subst hjv
    obtain ⟨rj, hrj, h⟩ := exceptBind_ok.mp h
    have hproj := gfindE_proj hfr
    rw [slLabelsLoop_succ, hproj, exceptOk_bind]
    dsimp only
    rw [hrj, exceptOk_bind]
    split at h
    · rename_i hneg
      rw [if_pos hneg]
      obtain ⟨rid1, hrid1, h⟩ := exceptBind_ok.mp h
      obtain ⟨res1, hres1, h⟩ := exceptBind_ok.mp h
      rw [hrid1, exceptOk_bind, hres1, exceptOk_bind]
      exact ih (i + 1) rid1 (c + 1) res1 fr.2 out h
    · rename_i hneg
      rw [if_neg hneg]
      obtain ⟨res1, hres1, h⟩ := exceptBind_ok.mp h
      rw [hres1, exceptOk_bind]
      exact ih (i + 1) rid c res1 fr.2 out h

/-- C2: with `noise_leaves = false` and `gini_threshold = 1`, whenever
`apply` succeeds its output equals the pure single-linkage cut of the
MST at the `(n-k)`-th edge: the Gini index never exceeds 1, so the
single-linkage branch is taken at every one of the `n - k` iterations,
consuming edges `0, ..., n-k-1` in order, and the resulting labels are
those of the components of the `n - k` lightest edges. -/
theorem C2_single_linkage_equiv (d : List ℚ) (ei : List Int) (n k : ℕ)
    (res : List Int) (hk : 1 ≤ k)
    (h : applyFull d ei n false k 1 = .ok res) :
    singleLinkageCut ei n k = .ok res := by
  unfold applyFull at h
  obtain ⟨st0, hst0, h⟩ := exceptBind_ok.mp h
  obtain ⟨hmst, hn0, hnl0, hnc0, hind0, hrev0, hne0, hpe0⟩ := cGenieInit_false_shape hst0
  unfold apply_genie at h
  obtain ⟨st1, hst1, h⟩ := exceptBind_ok.mp h
  obtain ⟨hcur1, hmst1, hn1, hnc1, hind1, hrev1, hds1, hchain⟩ :=
    skiplist_init_false_shape hnl0
      (by rw [hne0, List.length_replicate, hn0])
      (by rw [hpe0, List.length_replicate, hn0]) hst1
  obtain ⟨st2, hst2, h⟩ := exceptBind_ok.mp h
  have hn1' : st1.n = n := by rw [hn1, hn0]
  have hnc1' : st1.noise_count = 0 := by rw [hnc1, hnc0]
  unfold do_genie at hst2
  split at hst2
  · simp at hst2
  · rename_i hguard
    have hkn : k < n := by
      rw [hn1', hnc1'] at hguard
      by_contra hc
      refine hguard ?_
      push_cast
      omega
    have hT : st1.n - st1.noise_count - k = n - k := by
      rw [hn1', hnc1']
      omega
    have hN : st1.n - st1.noise_count = n := by
      rw [hn1', hnc1']
      omega
    rw [hT, hN] at hst2
    obtain ⟨hsl, hrev2, hind2, hn2⟩ := doGenie_sl_sim ei n (n - k) 0
      { st1 with ds := CGiniDisjointSets.mk0 n } 0 st2
      (by show st1.mst_i = ei; rw [hmst1, hmst])
      (by show st1.denoise_index_rev = idN n; rw [hrev1, hrev0])
      (by show st1.denoise_index = idN n; rw [hind1, hind0])
      (by show st1.n = n; exact hn1')
      (by
        show ∀ u : ℕ, u < n - 1 → rdI st1.next_edge (u : Int) = .ok ((u : Int) + 1)
        intro u hu
        refine hchain u ?_
        rw [hn0]
        exact hu)
      (by show st1.curidx = ((0 : ℕ) : Int); rw [hcur1]; simp)
      (by omega) hst2
    have hsl' : slMergeLoop ei 0 (n - k) (DisjointSets.mk0 n) = .ok st2.ds.ds := hsl
    unfold get_labels at h
    obtain ⟨rr, hrr, hres⟩ := exceptBind_ok.mp h
    have hres' : rr.1 = res := by
      simpa [pure, Except.pure] using hres
    have hlab := labels_sl_sim st2 (by rw [hn2]; exact hrev2) (by rw [hn2]; exact hind2)
      st2.n 0 (List.replicate st2.n (-1)) 0 (List.replicate st2.n 0) st2.ds rr hrr
    rw [hn2] at hlab
    unfold singleLinkageCut
    rw [hsl', exceptOk_bind, hlab, exceptOk_bind]
    dsimp only
    rw [hres']
    rfl

/-- Witness for C2: on the path graph with `k = 2` and threshold 1 the
engine returns `[0,0,0,0,1]`, and so does the single-linkage cut. -/
theorem C2_single_linkage_equiv_witness :
    singleLinkageCut [0,1,1,2,2,3,3,4] 5 2 = .ok [0,0,0,0,1] :=
  C2_single_linkage_equiv [1,2,3,4] [0,1,1,2,2,3,3,4] 5 2 [0,0,0,0,1]
    (by decide) (by decide)
